import Mathlib

/-!
Verification development for the Mamdani fuzzy-inference core of the
Fzzy-MovieRecom movie recommendation system.

The source performs real (IEEE double) arithmetic through numpy; here the
real arithmetic of every operation is modelled exactly over `ℚ`, and numpy
arrays are modelled as `List ℚ` sampled over the same grids the source
builds with `np.arange`.  Python dictionaries keyed by strings are modelled
as association lists (insertion ordered, unique keys), matching dict
iteration order.  Exceptions are modelled with `Except String`.

Sources embedded:
* `src/fuzzy_logic/membership_func.py` — `MembershipFunctions`
* `src/fuzzy_logic/variables.py`       — `FuzzyVariables` (whose arrays are
  produced by `skfuzzy.trimf` / `skfuzzy.trapmf`; those two library
  functions are embedded pointwise from their published definitions)
* `src/fuzzy_logic/rules.py`           — `FuzzyRuleEngine`
* `src/fuzzy_logic/fuzzy_model.py`     — `FuzzyMovieRecommender`
-/

namespace FuzzyRec

/-! ### Membership function primitives -/

/-- Pointwise value of `skfuzzy.trimf(x, [a, b, c])` at a single grid point
`x` (the source samples whole arrays; sampling is `List.map` of this).
skfuzzy assigns `(x-a)/(b-a)` strictly between `a` and `b`, `(c-x)/(c-b)`
strictly between `b` and `c`, `1` exactly at `b`, `0` elsewhere. -/
def trimfAt (a b c x : ℚ) : ℚ :=
  if x = b then 1
  else if a < x ∧ x < b then (x - a) / (b - a)
  else if b < x ∧ x < c then (c - x) / (c - b)
  else 0

/-- Pointwise value of `skfuzzy.trapmf(x, [a, b, c, d])`: start from `1`,
replace by `trimf(x,[a,b,b])` on `x ≤ b`, by `trimf(x,[c,c,d])` on `x ≥ c`
(that assignment is the later one in skfuzzy, hence wins on overlap), and
by `0` outside `[a, d]` (these assignments come last, hence win). -/
def trapmfAt (a b c d x : ℚ) : ℚ :=
  if x < a ∨ d < x then 0
  else if c ≤ x then trimfAt c c d x
  else if x ≤ b then trimfAt a b b x
  else 1

/-- `MembershipFunctions.triangular_mf` (membership_func.py lines 33-74),
evaluated at one point of the array: zeros, then `(x-a)/(b-a)` on
`[a, b]` when `b ≠ a`, then `(c-x)/(c-b)` on `(b, c]` when `c ≠ b`, and
finally `1.0` at `x = b` (the peak assignment comes last, so it wins).
The source raises on `¬(a ≤ b ≤ c)`; theorems assume valid parameters. -/
def triangular_mf (a b c x : ℚ) : ℚ :=
  if x = b then 1
  else if a ≤ x ∧ x ≤ b ∧ a ≠ b then (x - a) / (b - a)
  else if b < x ∧ x ≤ c ∧ b ≠ c then (c - x) / (c - b)
  else 0

/-- `MembershipFunctions.trapezoidal_mf` (membership_func.py lines 77-124),
evaluated at one point: zeros, left slope on `[a, b]` when `b ≠ a`, flat
top `1` on `(b, c]`, right slope on `(c, d]` when `d ≠ c`, and the final
edge-case assignments `mf[x = a] = 1` when `b = a` and `mf[x = d] = 1`
when `c = d` (written first here because they are executed last). -/
def trapezoidal_mf (a b c d x : ℚ) : ℚ :=
  if a = b ∧ x = a then 1
  else if c = d ∧ x = d then 1
  else if a ≤ x ∧ x ≤ b ∧ a ≠ b then (x - a) / (b - a)
  else if b < x ∧ x ≤ c then 1
  else if c < x ∧ x ≤ d ∧ c ≠ d then (d - x) / (d - c)
  else 0

/-- `np.interp` on a strictly increasing grid, for a query strictly inside
the grid range: walk the segments and linearly interpolate on the first
segment whose right endpoint is `≥ x`. -/
def interp (x : ℚ) : List ℚ → List ℚ → ℚ
  | x0 :: x1 :: xs, y0 :: y1 :: ys =>
    if x ≤ x1 then y0 + (y1 - y0) * (x - x0) / (x1 - x0)
    else interp x (x1 :: xs) (y1 :: ys)
  | _, _ => 0

/-- `MembershipFunctions.calculate_membership_degree` (membership_func.py
lines 254-277): clamp to the boundary array values outside the sampled
range, otherwise `np.interp`. -/
def calculate_membership_degree (x_val : ℚ) (x_universe mf_values : List ℚ) : ℚ :=
  if x_val ≤ x_universe.headD 0 then mf_values.headD 0
  else if x_universe.getLastD 0 ≤ x_val then mf_values.getLastD 0
  else interp x_val x_universe mf_values

/-! ### Linguistic variable catalog (variables.py)

`np.arange(1, 11, 0.1)` is the 100-point grid `1, 1.1, …, 10.9` and
`np.arange(0, 101, 1)` the 101-point grid `0, 1, …, 100`. -/

def user_rating_universe : List ℚ := (List.range 100).map (fun k : ℕ => 1 + (k : ℚ) / 10)

def percent_universe : List ℚ := (List.range 101).map (fun k : ℕ => (k : ℚ))

/-- A linguistic variable: its universe grid and, per linguistic term, the
membership array sampled over that grid. -/
structure LinguisticVariable where
  univ : List ℚ
  terms : List (String × List ℚ)

/-- `user_rating`: low = trimf [1,1,4], medium = trimf [2,5.5,8],
high = trimf [6,10,10]  (variables.py lines 50-56). -/
def user_rating_var : LinguisticVariable :=
  ⟨user_rating_universe,
   [("low", user_rating_universe.map (trimfAt 1 1 4)),
    ("medium", user_rating_universe.map (trimfAt 2 (11/2) 8)),
    ("high", user_rating_universe.map (trimfAt 6 10 10))]⟩

/-- `actor_popularity`: unknown = trapmf [0,0,20,40], known =
trapmf [20,40,60,80], famous = trapmf [60,80,100,100]  (lines 60-66). -/
def actor_popularity_var : LinguisticVariable :=
  ⟨percent_universe,
   [("unknown", percent_universe.map (trapmfAt 0 0 20 40)),
    ("known", percent_universe.map (trapmfAt 20 40 60 80)),
    ("famous", percent_universe.map (trapmfAt 60 80 100 100))]⟩

/-- `genre_match`: poor = trimf [0,0,35], moderate = trimf [20,50,80],
excellent = trimf [65,100,100]  (lines 70-76). -/
def genre_match_var : LinguisticVariable :=
  ⟨percent_universe,
   [("poor", percent_universe.map (trimfAt 0 0 35)),
    ("moderate", percent_universe.map (trimfAt 20 50 80)),
    ("excellent", percent_universe.map (trimfAt 65 100 100))]⟩

/-- `recommendation` (output): not_recommended = trimf [0,0,25],
possibly_recommended = trimf [15,40,65], recommended = trimf [50,75,90],
highly_recommended = trimf [80,100,100]  (lines 88-95). -/
def recommendation_var : LinguisticVariable :=
  ⟨percent_universe,
   [("not_recommended", percent_universe.map (trimfAt 0 0 25)),
    ("possibly_recommended", percent_universe.map (trimfAt 15 40 65)),
    ("recommended", percent_universe.map (trimfAt 50 75 90)),
    ("highly_recommended", percent_universe.map (trimfAt 80 100 100))]⟩

/-! ### Rule engine data model (rules.py) -/

/-- `RuleOperator` enum (rules.py lines 24-28). -/
inductive RuleOperator where
  | AND
  | OR
  | NOT
deriving DecidableEq

/-- `FuzzyCondition` dataclass (rules.py lines 38-54). -/
structure FuzzyCondition where
  variable_name : String
  linguistic_term : String
  negated : Bool := false
deriving DecidableEq

/-- `FuzzyRule` dataclass (rules.py lines 57-79).  The presentation-only
`description` string carries no numeric content and is omitted. -/
structure FuzzyRule where
  rule_id : ℕ
  antecedents : List FuzzyCondition
  consequent : FuzzyCondition
  operator : RuleOperator := .AND
  confidence : ℚ := 1
deriving DecidableEq

/-- Per-rule usage statistics entry (rules.py lines 370-374). -/
structure RuleStats where
  activation_count : ℕ
  total_activation_strength : ℚ
  average_activation_strength : ℚ
deriving DecidableEq

/-- The engine's `rule_statistics` dict, keyed by rule id. -/
abbrev StatsMap : Type := List (ℕ × RuleStats)

/-- Per-call membership map: variable name → (term → degree), as produced
by `fuzzify_inputs`. -/
abbrev MembershipMap : Type := List (String × List (String × ℚ))

/-- Activated rules grouped by consequent term:
`{consequent_term: [(rule_id, activation_strength), ...]}`. -/
abbrev Activations : Type := List (String × List (ℕ × ℚ))

/-- `FuzzyRuleEngine.add_rule` (rules.py lines 331-374): reject empty
antecedents, confidence outside `[0,1]`, and duplicate rule ids; otherwise
append the rule and a fresh statistics entry.  No other validation is
performed. -/
def add_rule (rules : List FuzzyRule) (stats : StatsMap) (rule_id : ℕ)
    (antecedents : List FuzzyCondition) (consequent : FuzzyCondition)
    (operator : RuleOperator) (confidence : ℚ) :
    Except String (List FuzzyRule × StatsMap) :=
  if antecedents = [] then
    .error "At least one antecedent is required"
  else if ¬(0 ≤ confidence ∧ confidence ≤ 1) then
    .error "Confidence must be between 0.0 and 1.0"
  else if rules.any (fun r => r.rule_id = rule_id) then
    .error "Rule ID already exists"
  else
    .ok (rules ++ [⟨rule_id, antecedents, consequent, operator, confidence⟩],
         stats ++ [(rule_id, ⟨0, 0, 0⟩)])

/-- The 15-rule default base built by
`FuzzyRuleEngine.create_movie_recommendation_rules` (rules.py lines
96-329); confidences are `RuleConfidence.HIGH/MEDIUM/LOW = 1.0/0.8/0.6`. -/
def default_rules : List FuzzyRule :=
  [⟨1, [⟨"user_rating", "high", false⟩, ⟨"actor_popularity", "famous", false⟩,
        ⟨"genre_match", "excellent", false⟩],
    ⟨"recommendation", "highly_recommended", false⟩, .AND, 1⟩,
   ⟨2, [⟨"user_rating", "high", false⟩, ⟨"genre_match", "excellent", false⟩],
    ⟨"recommendation", "highly_recommended", false⟩, .AND, 1⟩,
   ⟨3, [⟨"actor_popularity", "famous", false⟩, ⟨"genre_match", "excellent", false⟩],
    ⟨"recommendation", "highly_recommended", false⟩, .AND, 8/10⟩,
   ⟨4, [⟨"user_rating", "high", false⟩, ⟨"actor_popularity", "known", false⟩],
    ⟨"recommendation", "recommended", false⟩, .AND, 1⟩,
   ⟨5, [⟨"user_rating", "medium", false⟩, ⟨"actor_popularity", "famous", false⟩,
        ⟨"genre_match", "excellent", false⟩],
    ⟨"recommendation", "recommended", false⟩, .AND, 8/10⟩,
   ⟨6, [⟨"user_rating", "medium", false⟩, ⟨"genre_match", "excellent", false⟩],
    ⟨"recommendation", "recommended", false⟩, .AND, 8/10⟩,
   ⟨7, [⟨"user_rating", "high", false⟩, ⟨"genre_match", "moderate", false⟩],
    ⟨"recommendation", "recommended", false⟩, .AND, 8/10⟩,
   ⟨8, [⟨"user_rating", "medium", false⟩, ⟨"actor_popularity", "known", false⟩,
        ⟨"genre_match", "moderate", false⟩],
    ⟨"recommendation", "possibly_recommended", false⟩, .AND, 8/10⟩,
   ⟨9, [⟨"actor_popularity", "famous", false⟩, ⟨"genre_match", "moderate", false⟩],
    ⟨"recommendation", "possibly_recommended", false⟩, .AND, 6/10⟩,
   ⟨10, [⟨"user_rating", "high", false⟩, ⟨"genre_match", "poor", false⟩],
    ⟨"recommendation", "possibly_recommended", false⟩, .AND, 6/10⟩,
   ⟨11, [⟨"user_rating", "medium", false⟩, ⟨"actor_popularity", "famous", false⟩],
    ⟨"recommendation", "possibly_recommended", false⟩, .AND, 6/10⟩,
   ⟨12, [⟨"user_rating", "low", false⟩, ⟨"genre_match", "poor", false⟩],
    ⟨"recommendation", "not_recommended", false⟩, .AND, 1⟩,
   ⟨13, [⟨"user_rating", "low", false⟩, ⟨"actor_popularity", "unknown", false⟩],
    ⟨"recommendation", "not_recommended", false⟩, .AND, 1⟩,
   ⟨14, [⟨"user_rating", "low", false⟩, ⟨"actor_popularity", "known", false⟩,
         ⟨"genre_match", "poor", false⟩],
    ⟨"recommendation", "not_recommended", false⟩, .AND, 8/10⟩,
   ⟨15, [⟨"actor_popularity", "unknown", false⟩, ⟨"genre_match", "excellent", false⟩,
         ⟨"user_rating", "medium", false⟩],
    ⟨"recommendation", "possibly_recommended", false⟩, .AND, 6/10⟩]

/-! ### Rule evaluation (rules.py lines 376-501) -/

/-- Fetch `input_memberships[variable][term]` for one antecedent condition
and apply negation; `none` when the variable or term is absent. -/
def lookup_degree (m : MembershipMap) (c : FuzzyCondition) : Option ℚ :=
  match m.lookup c.variable_name with
  | none => none
  | some terms =>
    match terms.lookup c.linguistic_term with
    | none => none
    | some d => some (if c.negated then 1 - d else d)

/-- The antecedent loop of `evaluate_rule`: collect all degrees in order,
`none` as soon as one lookup fails (the source returns `0.0` there). -/
def gather_antecedents (m : MembershipMap) : List FuzzyCondition → Option (List ℚ)
  | [] => some []
  | c :: cs =>
    match lookup_degree m c with
    | none => none
    | some d => (gather_antecedents m cs).map (fun ds => d :: ds)

/-- Common core of `evaluate_rule` (rules.py lines 376-425).
`ok none` is the early `return 0.0` for a missing variable/term (it skips
the statistics update); `ok (some s)` is a computed strength; `error` is
the `ValueError` raised by `min`/`max` of an empty sequence (rule with no
antecedents) or by an unsupported operator (`NOT`). -/
def evaluate_rule_core (rule : FuzzyRule) (m : MembershipMap) : Except String (Option ℚ) :=
  match gather_antecedents m rule.antecedents with
  | none => .ok none
  | some [] => .error "min() arg is an empty sequence"
  | some (d :: ds) =>
    match rule.operator with
    | .AND => .ok (some (ds.foldl min d * rule.confidence))
    | .OR => .ok (some (ds.foldl max d * rule.confidence))
    | .NOT => .error "Unsupported operator"

/-- The activation strength returned by `evaluate_rule`. -/
def evaluate_rule (rule : FuzzyRule) (m : MembershipMap) : Except String ℚ :=
  match evaluate_rule_core rule m with
  | .error e => .error e
  | .ok none => .ok 0
  | .ok (some s) => .ok s

/-- `FuzzyRuleEngine._update_rule_statistics` (rules.py lines 493-501):
if the id has a statistics entry, bump its activation count, accumulate
the strength and recompute the running mean. -/
def update_rule_statistics (stats : StatsMap) (rule_id : ℕ) (s : ℚ) : StatsMap :=
  stats.map (fun p =>
    if p.1 = rule_id then
      (p.1, ⟨p.2.activation_count + 1, p.2.total_activation_strength + s,
             (p.2.total_activation_strength + s) / ((p.2.activation_count : ℚ) + 1)⟩)
    else p)

/-- `evaluate_rule` together with its statistics side effect: the update
runs exactly when a strength was computed (missing membership returns
early, an exception propagates before the update). -/
def evaluate_rule_st (rule : FuzzyRule) (m : MembershipMap) (stats : StatsMap) :
    Except String (ℚ × StatsMap) :=
  match evaluate_rule_core rule m with
  | .error e => .error e
  | .ok none => .ok (0, stats)
  | .ok (some s) => .ok (s, update_rule_statistics stats rule.rule_id s)

/-- Insert `(rule_id, strength)` under a consequent term, creating the
dict entry on first use (rules.py lines 445-450). -/
def add_activation (acc : Activations) (term : String) (rid : ℕ) (s : ℚ) : Activations :=
  if acc.any (fun p => p.1 = term) then
    acc.map (fun p => if p.1 = term then (p.1, p.2 ++ [(rid, s)]) else p)
  else acc ++ [(term, [(rid, s)])]

/-- Stable insertion keeping strengths in descending order: an element is
placed after every element of strictly greater or equal strength. -/
def insert_desc (q : ℕ × ℚ) : List (ℕ × ℚ) → List (ℕ × ℚ)
  | [] => [q]
  | r :: rs => if r.2 < q.2 then q :: r :: rs else r :: insert_desc q rs

/-- `list.sort(key=λx: x[1], reverse=True)`: stable descending sort by
activation strength. -/
def sort_desc (l : List (ℕ × ℚ)) : List (ℕ × ℚ) :=
  l.foldl (fun acc q => insert_desc q acc) []

def sort_activations (a : Activations) : Activations :=
  a.map (fun p => (p.1, sort_desc p.2))

/-- The rule loop of `evaluate_all_rules` (rules.py lines 441-450), pure
value: keep only strictly positive strengths, grouped by consequent. -/
def evaluate_all_go (m : MembershipMap) : List FuzzyRule → Activations → Except String Activations
  | [], acc => .ok acc
  | r :: rs, acc =>
    match evaluate_rule r m with
    | .error e => .error e
    | .ok s =>
      evaluate_all_go m rs
        (if 0 < s then add_activation acc r.consequent.linguistic_term r.rule_id s else acc)

/-- `FuzzyRuleEngine.evaluate_all_rules` (rules.py lines 427-456), pure
value: evaluate every rule, group activated ones by consequent term, sort
each group descending by strength. -/
def evaluate_all_rules (rules : List FuzzyRule) (m : MembershipMap) : Except String Activations :=
  (evaluate_all_go m rules []).map sort_activations

/-- The rule loop again, threading the statistics dict; when a rule raises,
the statistics updates of earlier rules persist. -/
def evaluate_all_go_st (m : MembershipMap) :
    List FuzzyRule → StatsMap → Activations → Except String Activations × StatsMap
  | [], stats, acc => (.ok acc, stats)
  | r :: rs, stats, acc =>
    match evaluate_rule_st r m stats with
    | .error e => (.error e, stats)
    | .ok (s, stats') =>
      evaluate_all_go_st m rs stats'
        (if 0 < s then add_activation acc r.consequent.linguistic_term r.rule_id s else acc)

/-- `evaluate_all_rules` with its statistics side effect. -/
def evaluate_all_rules_st (rules : List FuzzyRule) (m : MembershipMap) (stats : StatsMap) :
    Except String Activations × StatsMap :=
  match evaluate_all_go_st m rules stats [] with
  | (.error e, stats') => (.error e, stats')
  | (.ok acc, stats') => (.ok (sort_activations acc), stats')

/-! ### Inference engine (fuzzy_model.py) -/

/-- `DefuzzificationMethod` enum (fuzzy_model.py lines 38-44). -/
inductive DefuzzificationMethod where
  | centroid
  | bisector
  | mom
  | som
  | lom
deriving DecidableEq

def DefuzzificationMethod.value : DefuzzificationMethod → String
  | .centroid => "centroid"
  | .bisector => "bisector"
  | .mom => "mean_of_maximum"
  | .som => "smallest_of_maximum"
  | .lom => "largest_of_maximum"

/-- Python `max` over the strengths of one consequent's activation list
(nonempty whenever produced by `evaluate_all_rules`). -/
def max_strength : List (ℕ × ℚ) → ℚ
  | [] => 0
  | q :: qs => qs.foldl (fun a r => max a r.2) q.2

/-- The aggregation loop of `_defuzzify_output` (fuzzy_model.py lines
291-307): start from the all-zero curve over the output universe; for each
consequent term present in the recommendation variable, clip its
membership array at the maximum activation (pointwise `min`, Mamdani
implication) and fuse via pointwise `max`. -/
def aggregated_mf (activated : Activations) : List ℚ :=
  activated.foldl
    (fun agg p =>
      match recommendation_var.terms.lookup p.1 with
      | none => agg
      | some consequent_mf =>
        List.zipWith max agg (consequent_mf.map (fun y => min y (max_strength p.2))))
    (List.replicate percent_universe.length 0)

/-- `_centroid_defuzzification` (fuzzy_model.py lines 324-332). -/
def centroid_defuzzification (univ mf : List ℚ) : ℚ :=
  if mf.sum = 0 then 0
  else (List.zipWith (· * ·) univ mf).sum / mf.sum

/-- `np.trapz(mf, universe)`: trapezoidal integral over the grid. -/
def trapz : List ℚ → List ℚ → ℚ
  | m0 :: m1 :: ms, u0 :: u1 :: us =>
    (m0 + m1) * (u1 - u0) / 2 + trapz (m1 :: ms) (u1 :: us)
  | _, _ => 0

/-- The accumulation loop of `_bisector_defuzzification`: return the grid
point at which the cumulative trapezoidal area first reaches half the
total; past the loop, the last grid point. -/
def bisector_go (half : ℚ) : ℚ → List ℚ → List ℚ → ℚ
  | cum, m0 :: m1 :: ms, u0 :: u1 :: us =>
    if half ≤ cum + (m0 + m1) * (u1 - u0) / 2 then u0
    else bisector_go half (cum + (m0 + m1) * (u1 - u0) / 2) (m1 :: ms) (u1 :: us)
  | _, _, us => us.getLastD 0

/-- `_bisector_defuzzification` (fuzzy_model.py lines 334-350). -/
def bisector_defuzzification (univ mf : List ℚ) : ℚ :=
  if trapz mf univ = 0 then 0
  else bisector_go (trapz mf univ / 2) 0 mf univ

/-- `np.max` of a membership array (`0` only when the curve is
nonnegative and identically zero). -/
def max_list : List ℚ → ℚ
  | [] => 0
  | y :: ys => ys.foldl max y

/-- `universe[np.where(mf == np.max(mf))]`: the grid points achieving the
global maximum, in grid order. -/
def maxima_points (univ mf : List ℚ) : List ℚ :=
  ((univ.zip mf).filter (fun p => p.2 = max_list mf)).map (fun p => p.1)

/-- `_mom_defuzzification` (fuzzy_model.py lines 352-359). -/
def mom_defuzzification (univ mf : List ℚ) : ℚ :=
  if max_list mf = 0 then 0
  else (maxima_points univ mf).sum / ((maxima_points univ mf).length : ℚ)

/-- `_som_defuzzification` (fuzzy_model.py lines 361-368). -/
def som_defuzzification (univ mf : List ℚ) : ℚ :=
  if max_list mf = 0 then 0
  else (maxima_points univ mf).headD 0

/-- `_lom_defuzzification` (fuzzy_model.py lines 370-377). -/
def lom_defuzzification (univ mf : List ℚ) : ℚ :=
  if max_list mf = 0 then 0
  else (maxima_points univ mf).getLastD 0

/-- `_defuzzify_output` (fuzzy_model.py lines 270-322): `0.0` when no rule
activated, otherwise aggregate and apply the configured method. -/
def defuzzify_output (method : DefuzzificationMethod) (activated : Activations) : ℚ :=
  if activated = [] then 0
  else
    match method with
    | .centroid => centroid_defuzzification percent_universe (aggregated_mf activated)
    | .bisector => bisector_defuzzification percent_universe (aggregated_mf activated)
    | .mom => mom_defuzzification percent_universe (aggregated_mf activated)
    | .som => som_defuzzification percent_universe (aggregated_mf activated)
    | .lom => lom_defuzzification percent_universe (aggregated_mf activated)

/-- Python `max(terms.values())` over one variable's term → degree dict. -/
def max_terms_value : List (String × ℚ) → ℚ
  | [] => 0
  | p :: ps => ps.foldl (fun a q => max a q.2) p.2

/-- `_calculate_confidence` (fuzzy_model.py lines 379-424): `0.0` with no
activated rules; otherwise `min(1, 0.5·maxActivation + 0.3·inputCertainty
+ 0.2·ruleDiversity)` where inputCertainty is the mean over the map's
variables of the maximum term degree and ruleDiversity is
`min(1, totalActivated/5)`. -/
def calculate_confidence (activated : Activations) (m : MembershipMap) : ℚ :=
  if activated = [] then 0
  else
    let max_activation := activated.foldl (fun acc p => p.2.foldl (fun a q => max a q.2) acc) 0
    let certainty_sum := m.foldl (fun acc p => acc + max_terms_value p.2) 0
    let input_certainty := if 0 < m.length then certainty_sum / (m.length : ℚ) else certainty_sum
    let total_activated : ℕ := activated.foldl (fun acc p => acc + p.2.length) 0
    let rule_diversity := min 1 ((total_activated : ℚ) / 5)
    min 1 (0.5 * max_activation + 0.3 * input_certainty + 0.2 * rule_diversity)

/-- `FuzzyMovieRecommender._validate_inputs` (fuzzy_model.py lines
255-264). -/
def validate_inputs (user_rating actor_popularity genre_match : ℚ) : Except String Unit :=
  if ¬(1 ≤ user_rating ∧ user_rating ≤ 10) then
    .error "User rating must be between 1.0 and 10.0"
  else if ¬(0 ≤ actor_popularity ∧ actor_popularity ≤ 100) then
    .error "Actor popularity must be between 0.0 and 100.0"
  else if ¬(0 ≤ genre_match ∧ genre_match ≤ 100) then
    .error "Genre match must be between 0.0 and 100.0"
  else
    .ok ()

/-- Fuzzify one crisp value against every term of a variable. -/
def fuzzify_var (v : LinguisticVariable) (x : ℚ) : List (String × ℚ) :=
  v.terms.map (fun p => (p.1, calculate_membership_degree x v.univ p.2))

/-- The membership map built by `fuzzify_inputs` after validation
(fuzzy_model.py lines 130-162). -/
def fuzzify_inputs_raw (user_rating actor_popularity genre_match : ℚ) : MembershipMap :=
  [("user_rating", fuzzify_var user_rating_var user_rating),
   ("actor_popularity", fuzzify_var actor_popularity_var actor_popularity),
   ("genre_match", fuzzify_var genre_match_var genre_match)]

/-- `FuzzyMovieRecommender.fuzzify_inputs` (fuzzy_model.py lines 110-162):
validate, then fuzzify each input variable. -/
def fuzzify_inputs (user_rating actor_popularity genre_match : ℚ) :
    Except String MembershipMap :=
  match validate_inputs user_rating actor_popularity genre_match with
  | .error e => .error e
  | .ok _ => .ok (fuzzify_inputs_raw user_rating actor_popularity genre_match)

/-- `RecommendationResult` dataclass (fuzzy_model.py lines 47-65); the
presentation-only `explanation` string carries no numeric content and is
omitted. -/
structure RecommendationResult where
  recommendation_score : ℚ
  confidence_level : ℚ
  activated_rules : Activations
  membership_degrees : MembershipMap
  defuzzification_method : String
deriving DecidableEq

/-- The mutable state of a `FuzzyMovieRecommender` (the variable catalog
is immutable module data, embedded above as constants). -/
structure EngineState where
  defuzzification_method : DefuzzificationMethod
  rules : List FuzzyRule
  rule_statistics : StatsMap
  last_recommendation : Option RecommendationResult
  recommendation_history : List RecommendationResult
deriving DecidableEq

def initial_statistics (rules : List FuzzyRule) : StatsMap :=
  rules.map (fun r => (r.rule_id, ⟨0, 0, 0⟩))

/-- The engine state after `FuzzyMovieRecommender.__init__`: the default
rule base with zeroed statistics and empty history. -/
def default_engine (method : DefuzzificationMethod) : EngineState :=
  ⟨method, default_rules, initial_statistics default_rules, none, []⟩

/-- `FuzzyMovieRecommender.recommend_movie` (fuzzy_model.py lines
164-220): fuzzify (validation inside), evaluate rules (mutating the
statistics), defuzzify, compute confidence, build the result and append it
to the history.  An exception leaves already-performed statistics updates
in place but produces no result and no history entry. -/
def recommend_movie (st : EngineState) (user_rating actor_popularity genre_match : ℚ) :
    Except String RecommendationResult × EngineState :=
  match fuzzify_inputs user_rating actor_popularity genre_match with
  | .error e => (.error e, st)
  | .ok m =>
    match evaluate_all_rules_st st.rules m st.rule_statistics with
    | (.error e, stats') => (.error e, { st with rule_statistics := stats' })
    | (.ok activated, stats') =>
      let result : RecommendationResult :=
        ⟨defuzzify_output st.defuzzification_method activated,
         calculate_confidence activated m, activated, m,
         st.defuzzification_method.value⟩
      (.ok result,
       { st with rule_statistics := stats',
                 last_recommendation := some result,
                 recommendation_history := st.recommendation_history ++ [result] })

/-- The per-item placeholder built in `batch_recommend`'s `except` branch
(fuzzy_model.py lines 241-251): zero score, zero confidence, empty maps. -/
def placeholder_result (method : DefuzzificationMethod) : RecommendationResult :=
  ⟨0, 0, [], [], method.value⟩

/-- `FuzzyMovieRecommender.batch_recommend` (fuzzy_model.py lines
222-253): process the items in order; a failed item contributes the
placeholder and processing continues. -/
def batch_recommend (st : EngineState) (input_data : List (ℚ × ℚ × ℚ)) :
    List RecommendationResult × EngineState :=
  input_data.foldl
    (fun acc t =>
      match recommend_movie acc.2 t.1 t.2.1 t.2.2 with
      | (.ok r, st') => (acc.1 ++ [r], st')
      | (.error _, st') => (acc.1 ++ [placeholder_result st'.defuzzification_method], st'))
    ([], st)

/-- The `Except` value of `recommend_movie`, which depends on the engine
state only through the rule base and the configured method. -/
def recommend_value (rules : List FuzzyRule) (method : DefuzzificationMethod)
    (user_rating actor_popularity genre_match : ℚ) : Except String RecommendationResult :=
  match fuzzify_inputs user_rating actor_popularity genre_match with
  | .error e => .error e
  | .ok m =>
    match evaluate_all_rules rules m with
    | .error e => .error e
    | .ok activated =>
      .ok ⟨defuzzify_output method activated, calculate_confidence activated m,
           activated, m, method.value⟩

/-- The result contributed by one batch item: the recommendation when the
item succeeds, the placeholder when it raises. -/
def item_result (rules : List FuzzyRule) (method : DefuzzificationMethod)
    (t : ℚ × ℚ × ℚ) : RecommendationResult :=
  match recommend_value rules method t.1 t.2.1 t.2.2 with
  | .ok r => r
  | .error _ => placeholder_result method

def except_is_ok {ε α : Type} : Except ε α → Bool
  | .ok _ => true
  | .error _ => false

def result_score : Except String RecommendationResult → ℚ
  | .ok r => r.recommendation_score
  | .error _ => 0

/-! ### Helper and spec-side definitions

The definitions below are not translations of source functions: the
`_spec` definitions are modelled from the specification's own wording and
are compared against the source embedding by the refinement theorems; the
small helpers (`list_min`, `ascending`, …) are plain mathematical
vocabulary used by both sides. -/

/-- Python `min` of a nonempty list (`0` as junk value on `[]`). -/
def list_min : List ℚ → ℚ
  | [] => 0
  | d :: ds => ds.foldl min d

/-- Python `max` of a nonempty list (`0` as junk value on `[]`). -/
def list_max : List ℚ → ℚ
  | [] => 0
  | d :: ds => ds.foldl max d

/-- Boolean check that a grid is strictly increasing. -/
def ascending : List ℚ → Bool
  | x0 :: x1 :: xs => decide (x0 < x1) && ascending (x1 :: xs)
  | _ => true

def clamp01 (x : ℚ) : ℚ := max 0 (min 1 x)

/-- The degree `membershipMap[variable][term]` of one condition, with
negation applied (`0` as junk value when absent). -/
def cond_degree (m : MembershipMap) (c : FuzzyCondition) : ℚ :=
  let d := ((m.lookup c.variable_name).bind (fun ts => ts.lookup c.linguistic_term)).getD 0
  if c.negated then 1 - d else d

/-- Modelled from the spec (§4.3 `evaluateRule`): fetch
`membershipMap[variable][term]` per antecedent condition, use `1 − degree`
when negated; if any variable/term is missing the rule cannot fire
(strength 0); combine across antecedents with `min` for `AND` and `max`
for `OR`; multiply the combined value by the rule's confidence. -/
def rule_strength_spec (rule : FuzzyRule) (m : MembershipMap) : ℚ :=
  if rule.antecedents.all (fun c =>
      ((m.lookup c.variable_name).bind (fun ts => ts.lookup c.linguistic_term)).isSome) then
    (match rule.operator with
     | .AND => list_min (rule.antecedents.map (fun c => cond_degree m c))
     | .OR => list_max (rule.antecedents.map (fun c => cond_degree m c))
     | .NOT => 0) * rule.confidence
  else 0

/-- Modelled from the spec (§4.4 step 4): pointwise at grid index `i`,
the aggregate is the maximum (seeded by the all-zero start curve), over
consequent terms of the recommendation variable carrying activated rules,
of that term's membership clipped at the maximum firing strength among the
term's rules. -/
def agg_spec_at (activated : Activations) (i : ℕ) : ℚ :=
  (activated.filterMap (fun p =>
      (recommendation_var.terms.lookup p.1).map
        (fun cmf => min (cmf.getD i 0) (max_strength p.2)))).foldl max 0

/-- Modelled from the spec (§4.4 step 5): the centroid is
`Σ x·μ(x) / Σ μ(x)` over the 0..100 output grid, defined as `0` when
`Σ μ(x) = 0`. -/
def centroid_spec (mf : List ℚ) : ℚ :=
  if (∑ i in Finset.range 101, mf.getD i 0) = 0 then 0
  else (∑ i in Finset.range 101, (i : ℚ) * mf.getD i 0) / (∑ i in Finset.range 101, mf.getD i 0)

/-- Modelled from the spec (§4.4 step 6): confidence is
`0.5·maxFiringStrength + 0.3·meanOverInputVariables(maxTermDegree) +
0.2·min(1, firedRuleCount/5)`, clamped to `[0,1]`. -/
def confidence_spec (activated : Activations) (m : MembershipMap) : ℚ :=
  let strengths := (activated.flatMap (fun p => p.2)).map (fun q => q.2)
  let max_firing := list_max strengths
  let mean_certainty := (m.map (fun p => max_terms_value p.2)).sum / (m.length : ℚ)
  let diversity := min 1 ((strengths.length : ℚ) / 5)
  clamp01 (0.5 * max_firing + 0.3 * mean_certainty + 0.2 * diversity)

/-- A rule whose antecedent references a linguistic term (`"bogus"`) that
no variable of the catalog declares. -/
def bogus_rule : FuzzyRule :=
  ⟨99, [⟨"user_rating", "bogus", false⟩], ⟨"recommendation", "recommended", false⟩, .AND, 1⟩

/-! ## Generic list lemmas -/

theorem getLastD_mem : ∀ (l : List ℚ) (d : ℚ), l ≠ [] → l.getLastD d ∈ l := by
  intro l
  induction l with
  | nil => intro d h; exact absurd rfl h
  | cons a l ih =>
    intro d _
    rw [List.getLastD_cons]
    cases l with
    | nil => simp [List.getLastD]
    | cons b l' => exact List.mem_cons_of_mem _ (ih a (by simp))

theorem mem_of_lookup {α β : Type} [BEq α] [LawfulBEq α] (k : α) (v : β) :
    ∀ l : List (α × β), l.lookup k = some v → (k, v) ∈ l := by
  intro l
  induction l with
  | nil => intro h; simp [List.lookup] at h
  | cons p l ih =>
    intro h
    rcases p with ⟨a, b⟩
    by_cases hk : k == a
    · have hval : List.lookup k ((a, b) :: l) = some b := by simp [List.lookup, hk]
      rw [hval] at h
      injection h with h
      have hka : k = a := eq_of_beq hk
      subst hka
      subst h
      exact List.mem_cons_self _ _
    · have hval : List.lookup k ((a, b) :: l) = List.lookup k l := by
        simp [List.lookup, Bool.of_not_eq_true hk]
      rw [hval] at h
      exact List.mem_cons_of_mem _ (ih h)

theorem foldl_min_bounds (lo hi : ℚ) :
    ∀ (l : List ℚ) (d : ℚ), lo ≤ d → d ≤ hi → (∀ y ∈ l, lo ≤ y ∧ y ≤ hi) →
      lo ≤ l.foldl min d ∧ l.foldl min d ≤ hi := by
  intro l
  induction l with
  | nil => intro d h1 h2 _; exact ⟨h1, h2⟩
  | cons a l ih =>
    intro d h1 h2 hl
    have ha := hl a (by simp)
    simp only [List.foldl_cons]
    exact ih (min d a) (le_min h1 ha.1) (le_trans (min_le_left _ _) h2)
      (fun y hy => hl y (by simp [hy]))

theorem foldl_max_bounds (lo hi : ℚ) :
    ∀ (l : List ℚ) (d : ℚ), lo ≤ d → d ≤ hi → (∀ y ∈ l, lo ≤ y ∧ y ≤ hi) →
      lo ≤ l.foldl max d ∧ l.foldl max d ≤ hi := by
  intro l
  induction l with
  | nil => intro d h1 h2 _; exact ⟨h1, h2⟩
  | cons a l ih =>
    intro d h1 h2 hl
    have ha := hl a (by simp)
    simp only [List.foldl_cons]
    exact ih (max d a) (le_trans h1 (le_max_left _ _)) (max_le h2 ha.2)
      (fun y hy => hl y (by simp [hy]))

theorem le_foldl_max : ∀ (l : List ℚ) (d : ℚ), d ≤ l.foldl max d := by
  intro l
  induction l with
  | nil => intro d; exact le_refl d
  | cons a l ih =>
    intro d
    simp only [List.foldl_cons]
    exact le_trans (le_max_left d a) (ih (max d a))

theorem foldl_max_le : ∀ (l : List ℚ) (d hi : ℚ), d ≤ hi → (∀ y ∈ l, y ≤ hi) →
    l.foldl max d ≤ hi := by
  intro l
  induction l with
  | nil => intro d hi h _; exact h
  | cons a l ih =>
    intro d hi h hl
    simp only [List.foldl_cons]
    exact ih _ _ (max_le h (hl a (by simp))) (fun y hy => hl y (by simp [hy]))

theorem foldl_max_zero_eq_list_max : ∀ l : List ℚ, l ≠ [] → (∀ y ∈ l, 0 ≤ y) →
    l.foldl max 0 = list_max l := by
  intro l hne h0
  cases l with
  | nil => exact absurd rfl hne
  | cons a l =>
    simp only [List.foldl_cons, list_max]
    rw [max_eq_right (h0 a (by simp))]

theorem list_sum_le_mul_length (B : ℚ) : ∀ l : List ℚ, (∀ x ∈ l, x ≤ B) →
    l.sum ≤ B * l.length := by
  intro l
  induction l with
  | nil => intro _; simp
  | cons a l ih =>
    intro h
    have := ih (fun x hx => h x (by simp [hx]))
    have ha := h a (by simp)
    simp only [List.sum_cons, List.length_cons]
    push_cast
    nlinarith

theorem zipWith_mul_sum_nonneg : ∀ (u m : List ℚ), (∀ a ∈ u, 0 ≤ a) → (∀ y ∈ m, 0 ≤ y) →
    0 ≤ (List.zipWith (· * ·) u m).sum := by
  intro u
  induction u with
  | nil => intro m _ _; simp
  | cons a u ih =>
    intro m hu hm
    cases m with
    | nil => simp
    | cons y m =>
      simp only [List.zipWith_cons_cons, List.sum_cons]
      have h1 : 0 ≤ a * y := mul_nonneg (hu a (by simp)) (hm y (by simp))
      have h2 := ih m (fun x hx => hu x (by simp [hx])) (fun x hx => hm x (by simp [hx]))
      linarith

theorem zipWith_mul_sum_le (B : ℚ) (hB : 0 ≤ B) :
    ∀ (u m : List ℚ), (∀ a ∈ u, a ≤ B) → (∀ y ∈ m, 0 ≤ y) →
      (List.zipWith (· * ·) u m).sum ≤ B * m.sum := by
  intro u
  induction u with
  | nil =>
    intro m _ hm
    simp only [List.zipWith_nil_left, List.sum_nil]
    exact mul_nonneg hB (List.sum_nonneg hm)
  | cons a u ih =>
    intro m hu hm
    cases m with
    | nil => simp
    | cons y m =>
      simp only [List.zipWith_cons_cons, List.sum_cons]
      have h1 : a * y ≤ B * y :=
        mul_le_mul_of_nonneg_right (hu a (by simp)) (hm y (by simp))
      have h2 := ih m (fun x hx => hu x (by simp [hx])) (fun x hx => hm x (by simp [hx]))
      nlinarith

theorem list_sum_eq_range_sum : ∀ l : List ℚ, l.sum = ∑ i in Finset.range l.length, l.getD i 0 := by
  intro l
  induction l with
  | nil => simp
  | cons a l ih =>
    simp only [List.sum_cons, List.length_cons]
    rw [Finset.sum_range_succ']
    simp only [List.getD_cons_succ, List.getD_cons_zero]
    rw [← ih]
    ring

theorem zipWith_getD (f : ℚ → ℚ → ℚ) :
    ∀ (l1 l2 : List ℚ) (i : ℕ), i < l1.length → i < l2.length →
      (List.zipWith f l1 l2).getD i 0 = f (l1.getD i 0) (l2.getD i 0) := by
  intro l1
  induction l1 with
  | nil => intro l2 i h1 _; simp at h1
  | cons a l1 ih =>
    intro l2 i h1 h2
    cases l2 with
    | nil => simp at h2
    | cons b l2 =>
      cases i with
      | zero => simp
      | succ i =>
        simp only [List.zipWith_cons_cons, List.getD_cons_succ]
        exact ih l2 i (by simpa using h1) (by simpa using h2)

theorem map_getD {α β : Type} (f : α → β) (da : α) (db : β) :
    ∀ (l : List α) (i : ℕ), i < l.length → (l.map f).getD i db = f (l.getD i da) := by
  intro l
  induction l with
  | nil => intro i h; simp at h
  | cons a l ih =>
    intro i h
    cases i with
    | zero => simp
    | succ i =>
      simp only [List.map_cons, List.getD_cons_succ]
      exact ih i (by simpa using h)

/-! ## Claim C9: degenerate membership-function shoulders -/

/-- C9: for `trapezoidal_mf` with `a = b` the degree at `x = a` is exactly
1, with `c = d` the degree at `x = d` is exactly 1, for `triangular_mf`
the degree at the peak `x = b` is exactly 1 even when `a = b` or `b = c`,
and in particular the catalog shapes trap(0,0,20,40) at 0 and tri(1,1,4)
at 1 give degree 1. -/
theorem C9_degenerate_shoulder_membership (a b c d : ℚ)
    (_hab : a ≤ b) (_hbc : b ≤ c) (_hcd : c ≤ d) :
    (a = b → trapezoidal_mf a b c d a = 1) ∧
    (c = d → trapezoidal_mf a b c d d = 1) ∧
    (∀ a1 b1 c1 : ℚ, a1 ≤ b1 → b1 ≤ c1 → triangular_mf a1 b1 c1 b1 = 1) ∧
    trapezoidal_mf 0 0 20 40 0 = 1 ∧ triangular_mf 1 1 4 1 = 1 := by
  refine ⟨?_, ?_, ?_, ?_, ?_⟩
  · intro h; simp [trapezoidal_mf, h]
  · intro h
    by_cases h1 : a = b ∧ d = a
    · rw [trapezoidal_mf, if_pos ⟨h1.1, h1.2⟩]
    · rw [trapezoidal_mf, if_neg h1, if_pos ⟨h, rfl⟩]
  · intro a1 b1 c1 _ _; simp [triangular_mf]
  · norm_num [trapezoidal_mf]
  · norm_num [triangular_mf]

theorem C9_degenerate_shoulder_membership_witness :
    trapezoidal_mf 0 0 20 40 0 = 1 ∧ triangular_mf 1 1 4 1 = 1 := by
  have h := C9_degenerate_shoulder_membership 0 0 20 40
    (by norm_num) (by norm_num) (by norm_num)
  exact ⟨h.2.2.2.1, h.2.2.2.2⟩

/-! ## Claim C2: evaluate_rule against the spec formula -/

theorem lookup_degree_eq (m : MembershipMap) (c : FuzzyCondition) :
    lookup_degree m c =
      ((m.lookup c.variable_name).bind (fun ts => ts.lookup c.linguistic_term)).map
        (fun d => if c.negated then 1 - d else d) := by
  cases hm : m.lookup c.variable_name with
  | none => simp [lookup_degree, hm]
  | some ts =>
    cases hts : ts.lookup c.linguistic_term with
    | none => simp [lookup_degree, hm, hts]
    | some d => simp [lookup_degree, hm, hts]

theorem lookup_degree_isSome (m : MembershipMap) (c : FuzzyCondition) :
    (lookup_degree m c).isSome =
      ((m.lookup c.variable_name).bind (fun ts => ts.lookup c.linguistic_term)).isSome := by
  rw [lookup_degree_eq]
  cases (m.lookup c.variable_name).bind (fun ts => ts.lookup c.linguistic_term) with
  | none => rfl
  | some d => rfl

theorem cond_degree_of_lookup (m : MembershipMap) (c : FuzzyCondition) (d : ℚ)
    (h : lookup_degree m c = some d) : d = cond_degree m c := by
  rw [lookup_degree_eq] at h
  cases hch : (m.lookup c.variable_name).bind (fun ts => ts.lookup c.linguistic_term) with
  | none => rw [hch] at h; simp at h
  | some d0 =>
    rw [hch] at h
    simp at h
    simp [cond_degree, hch, ← h]

theorem gather_antecedents_eq (m : MembershipMap) :
    ∀ cs : List FuzzyCondition,
      gather_antecedents m cs =
        if cs.all (fun c => (lookup_degree m c).isSome)
        then some (cs.map (cond_degree m)) else none := by
  intro cs
  induction cs with
  | nil => simp [gather_antecedents]
  | cons c cs ih =>
    rw [gather_antecedents]
    cases hc : lookup_degree m c with
    | none => simp [List.all_cons, hc]
    | some d =>
      rw [ih]
      by_cases hall : cs.all (fun c => (lookup_degree m c).isSome)
      · simp [List.all_cons, hc, hall, ← cond_degree_of_lookup m c d hc]
      · simp [List.all_cons, hc, hall]

/-- C2: for every rule (with at least one antecedent and a supported
operator) and every membership map, `evaluate_rule` returns the rule's
confidence times the AND=min / OR=max combination of the antecedent
degrees `membershipMap[variable][term]` (negated: `1 − degree`), and `0`
whenever some antecedent's variable or term is absent from the map —
exactly the spec's formula `rule_strength_spec`. -/
theorem C2_evaluate_rule_matches_spec (rule : FuzzyRule) (m : MembershipMap)
    (hne : rule.antecedents ≠ []) (hop : rule.operator ≠ .NOT) :
    evaluate_rule rule m = .ok (rule_strength_spec rule m) := by
  have hall : (rule.antecedents.all (fun c => (lookup_degree m c).isSome)) =
      (rule.antecedents.all (fun c =>
        ((m.lookup c.variable_name).bind (fun ts => ts.lookup c.linguistic_term)).isSome)) := by
    simp only [lookup_degree_isSome]
  unfold evaluate_rule evaluate_rule_core rule_strength_spec
  rw [gather_antecedents_eq, ← hall]
  by_cases h : rule.antecedents.all (fun c => (lookup_degree m c).isSome)
  · rw [if_pos h, if_pos h]
    cases hcs : rule.antecedents with
    | nil => exact absurd hcs hne
    | cons c cs =>
      simp only [List.map_cons]
      cases hopc : rule.operator with
      | AND => simp [list_min]
      | OR => simp [list_max]
      | NOT => exact absurd hopc hop
  · rw [if_neg h, if_neg h]

theorem C2_evaluate_rule_matches_spec_witness :
    evaluate_rule
        ⟨1, [⟨"user_rating", "high", false⟩, ⟨"actor_popularity", "famous", false⟩,
             ⟨"genre_match", "excellent", false⟩],
         ⟨"recommendation", "highly_recommended", false⟩, .AND, 1⟩
        [("user_rating", [("low", 1/10), ("medium", 3/10), ("high", 8/10)]),
         ("actor_popularity", [("unknown", 2/10), ("known", 7/10), ("famous", 4/10)]),
         ("genre_match", [("poor", 1/10), ("moderate", 2/10), ("excellent", 9/10)])] =
      .ok (rule_strength_spec
        ⟨1, [⟨"user_rating", "high", false⟩, ⟨"actor_popularity", "famous", false⟩,
             ⟨"genre_match", "excellent", false⟩],
         ⟨"recommendation", "highly_recommended", false⟩, .AND, 1⟩
        [("user_rating", [("low", 1/10), ("medium", 3/10), ("high", 8/10)]),
         ("actor_popularity", [("unknown", 2/10), ("known", 7/10), ("famous", 4/10)]),
         ("genre_match", [("poor", 1/10), ("moderate", 2/10), ("excellent", 9/10)])]) := by
  exact C2_evaluate_rule_matches_spec _ _ (by simp) (by simp)

/-! ## Claim C8: unknown linguistic terms in add_rule -/

/-- C8 counterexample: `add_rule` admits a rule whose antecedent
references the unknown term "bogus" with no error — the claimed
configuration error is never raised, so the rule IS silently admitted
into the rule base. -/
theorem C8_unknown_term_admitted :
    add_rule default_rules (initial_statistics default_rules) 99
        bogus_rule.antecedents bogus_rule.consequent .AND 1 =
      .ok (default_rules ++ [bogus_rule],
           initial_statistics default_rules ++ [(99, ⟨0, 0, 0⟩)]) := by
  with_unfolding_all rfl

/-- C8 (amended): `add_rule` fails exactly when the antecedent list is
empty, the confidence lies outside `[0,1]`, or the rule id already exists;
term existence is never checked, so a rule referencing an unknown
linguistic term is appended to the rule base without error. -/
theorem C8_add_rule_checks (rules : List FuzzyRule) (stats : StatsMap) (rid : ℕ)
    (ants : List FuzzyCondition) (con : FuzzyCondition) (op : RuleOperator) (conf : ℚ) :
    (except_is_ok (add_rule rules stats rid ants con op conf) = false ↔
      ants = [] ∨ ¬(0 ≤ conf ∧ conf ≤ 1) ∨ (∃ r ∈ rules, r.rule_id = rid)) ∧
    (ants ≠ [] → (0 ≤ conf ∧ conf ≤ 1) → (∀ r ∈ rules, r.rule_id ≠ rid) →
      add_rule rules stats rid ants con op conf =
        .ok (rules ++ [⟨rid, ants, con, op, conf⟩], stats ++ [(rid, ⟨0, 0, 0⟩)])) := by
  constructor
  · by_cases h1 : ants = []
    · simp [add_rule, except_is_ok, h1]
    · by_cases h2 : 0 ≤ conf ∧ conf ≤ 1
      · by_cases h3 : ∃ r ∈ rules, r.rule_id = rid
        · have hany : (rules.any (fun r => r.rule_id = rid)) = true := by
            rw [List.any_eq_true]; simpa using h3
          simp [add_rule, except_is_ok, h1, h2, hany, h3]
        · have hany : (rules.any (fun r => r.rule_id = rid)) = false := by
            rw [List.any_eq_false]; simpa using h3
          simp [add_rule, except_is_ok, h1, h2, hany, h3]
      · simp [add_rule, except_is_ok, h1, h2]
  · intro h1 h2 h3
    have hany : (rules.any (fun r => r.rule_id = rid)) = false := by
      simp only [List.any_eq_false, decide_eq_true_eq]
      exact h3
    unfold add_rule
    rw [if_neg h1, if_neg (not_not_intro h2), if_neg (by simp [hany])]

theorem C8_add_rule_checks_witness :
    add_rule [] [] 1 [⟨"user_rating", "bogus", false⟩]
        ⟨"recommendation", "recommended", false⟩ .AND 1 =
      .ok ([⟨1, [⟨"user_rating", "bogus", false⟩],
             ⟨"recommendation", "recommended", false⟩, .AND, 1⟩],
           [(1, ⟨0, 0, 0⟩)]) := by
  have h := (C8_add_rule_checks [] [] 1 [⟨"user_rating", "bogus", false⟩]
    ⟨"recommendation", "recommended", false⟩ .AND 1).2
  simpa using h (by simp) (by norm_num) (by simp)

/-! ## Claim C1: the reference recommendation -/

set_option maxRecDepth 100000 in
/-- C1: `recommend_movie(8.5, 85, 90)` on the engine built with the
default 15-rule base and centroid defuzzification succeeds and returns a
recommendation score that is at least 60 (the exact value is
8270/89 ≈ 92.9). -/
theorem C1_default_recommend_score_ge_60 :
    except_is_ok (recommend_movie (default_engine .centroid) 8.5 85 90).1 = true ∧
    60 ≤ result_score (recommend_movie (default_engine .centroid) 8.5 85 90).1 := by
  with_unfolding_all decide

/-! ## Claim C10: statistics side effect of rule evaluation -/

theorem update_rule_statistics_fst (stats : StatsMap) (rid : ℕ) (s : ℚ) :
    (update_rule_statistics stats rid s).map Prod.fst = stats.map Prod.fst := by
  unfold update_rule_statistics
  rw [List.map_map]
  apply List.map_congr_left
  intro p _
  by_cases h : p.1 = rid <;> simp [h]

theorem update_rule_statistics_mem_other (stats : StatsMap) (rid : ℕ) (s : ℚ) :
    ∀ p ∈ stats, p.1 ≠ rid → p ∈ update_rule_statistics stats rid s := by
  intro p hp hne
  unfold update_rule_statistics
  refine List.mem_map.mpr ⟨p, hp, ?_⟩
  simp [hne]

theorem update_rule_statistics_mem_self (stats : StatsMap) (rid : ℕ) (s : ℚ) :
    ∀ p ∈ stats, p.1 = rid →
      ((p.1, ⟨p.2.activation_count + 1, p.2.total_activation_strength + s,
              (p.2.total_activation_strength + s) / ((p.2.activation_count : ℚ) + 1)⟩) :
        ℕ × RuleStats) ∈ update_rule_statistics stats rid s := by
  intro p hp heq
  unfold update_rule_statistics
  refine List.mem_map.mpr ⟨p, hp, ?_⟩
  simp [heq]

/-- C10: evaluating a rule whose antecedent variables and terms are all
present in the membership map returns a strength `s` together with the
statistics map updated exactly at that rule's id — activation count
incremented by one, `s` accumulated into the total and the running mean
recomputed, even when `s = 0` — while every other entry and the key
structure of the statistics map stay unchanged. -/
theorem C10_evaluate_rule_updates_statistics (rule : FuzzyRule) (m : MembershipMap)
    (stats : StatsMap)
    (hpres : (gather_antecedents m rule.antecedents).isSome = true)
    (hne : rule.antecedents ≠ []) (hop : rule.operator ≠ .NOT) :
    ∃ s, evaluate_rule_st rule m stats = .ok (s, update_rule_statistics stats rule.rule_id s) ∧
      (update_rule_statistics stats rule.rule_id s).map Prod.fst = stats.map Prod.fst ∧
      (∀ p ∈ stats, p.1 ≠ rule.rule_id → p ∈ update_rule_statistics stats rule.rule_id s) ∧
      (∀ p ∈ stats, p.1 = rule.rule_id →
        ((p.1, ⟨p.2.activation_count + 1, p.2.total_activation_strength + s,
                (p.2.total_activation_strength + s) / ((p.2.activation_count : ℚ) + 1)⟩) :
          ℕ × RuleStats) ∈ update_rule_statistics stats rule.rule_id s) := by
  rw [gather_antecedents_eq] at hpres
  by_cases hall : rule.antecedents.all (fun c => (lookup_degree m c).isSome)
  · have hg : gather_antecedents m rule.antecedents =
        some (rule.antecedents.map (cond_degree m)) := by
      rw [gather_antecedents_eq, if_pos hall]
    cases hcs : rule.antecedents with
    | nil => exact absurd hcs hne
    | cons c cs =>
      rw [hcs, List.map_cons] at hg
      cases hoc : rule.operator with
      | AND =>
        refine ⟨(cs.map (cond_degree m)).foldl min (cond_degree m c) * rule.confidence,
          ?_, update_rule_statistics_fst _ _ _, update_rule_statistics_mem_other _ _ _,
          update_rule_statistics_mem_self _ _ _⟩
        unfold evaluate_rule_st evaluate_rule_core
        rw [hcs, hg, hoc]
      | OR =>
        refine ⟨(cs.map (cond_degree m)).foldl max (cond_degree m c) * rule.confidence,
          ?_, update_rule_statistics_fst _ _ _, update_rule_statistics_mem_other _ _ _,
          update_rule_statistics_mem_self _ _ _⟩
        unfold evaluate_rule_st evaluate_rule_core
        rw [hcs, hg, hoc]
      | NOT => exact absurd hoc hop
  · rw [if_neg hall] at hpres
    simp at hpres

theorem C10_evaluate_rule_updates_statistics_witness :
    evaluate_rule_st
        ⟨4, [⟨"user_rating", "high", false⟩, ⟨"actor_popularity", "known", false⟩],
         ⟨"recommendation", "recommended", false⟩, .AND, 1⟩
        (fuzzify_inputs_raw 8.5 85 90) (initial_statistics default_rules) =
      .ok (0, update_rule_statistics (initial_statistics default_rules) 4 0) := by
  obtain ⟨_s, _h1, -, -, -⟩ := C10_evaluate_rule_updates_statistics
    ⟨4, [⟨"user_rating", "high", false⟩, ⟨"actor_popularity", "known", false⟩],
     ⟨"recommendation", "recommended", false⟩, .AND, 1⟩
    (fuzzify_inputs_raw 8.5 85 90) (initial_statistics default_rules)
    (by with_unfolding_all decide) (by simp) (by simp)
  with_unfolding_all rfl

/-! ## Claim C3: Mamdani aggregation -/

theorem recommendation_lookup_length (s : String) (cmf : List ℚ)
    (h : recommendation_var.terms.lookup s = some cmf) : cmf.length = 101 := by
  have hm := mem_of_lookup s cmf _ h
  simp only [recommendation_var, List.mem_cons, List.not_mem_nil, or_false] at hm
  rcases hm with h2 | h2 | h2 | h2 <;>
  · have h3 := congrArg Prod.snd h2
    simp only at h3
    rw [h3, List.length_map]
    with_unfolding_all decide

theorem aggregated_mf_go (i : ℕ) (hi : i < 101) :
    ∀ (acts : Activations) (agg : List ℚ), agg.length = 101 →
      ((acts.foldl (fun agg p =>
          match recommendation_var.terms.lookup p.1 with
          | none => agg
          | some consequent_mf =>
            List.zipWith max agg (consequent_mf.map (fun y => min y (max_strength p.2))))
          agg).length = 101 ∧
       (acts.foldl (fun agg p =>
          match recommendation_var.terms.lookup p.1 with
          | none => agg
          | some consequent_mf =>
            List.zipWith max agg (consequent_mf.map (fun y => min y (max_strength p.2))))
          agg).getD i 0 =
        (acts.filterMap (fun p => (recommendation_var.terms.lookup p.1).map
            (fun cmf => min (cmf.getD i 0) (max_strength p.2)))).foldl max (agg.getD i 0)) := by
  intro acts
  induction acts with
  | nil => intro agg hlen; exact ⟨hlen, rfl⟩
  | cons p acts ih =>
    intro agg hlen
    simp only [List.foldl_cons, List.filterMap_cons]
    cases hl : recommendation_var.terms.lookup p.1 with
    | none => simpa using ih agg hlen
    | some cmf =>
      have hcl : cmf.length = 101 := recommendation_lookup_length _ _ hl
      have hlen' : (List.zipWith max agg
          (cmf.map (fun y => min y (max_strength p.2)))).length = 101 := by
        simp [hlen, hcl]
      have hstep := ih _ hlen'
      simp only [Option.map_some']
      refine ⟨hstep.1, ?_⟩
      rw [hstep.2, List.foldl_cons]
      congr 1
      rw [zipWith_getD max agg _ i (by omega) (by simp [hcl]; omega)]
      rw [map_getD _ 0 0 cmf i (by omega)]

/-- C3: the aggregated output curve has the grid's 101 points and equals,
pointwise, the maximum over consequent terms carrying activated rules of
that term's membership clipped (pointwise min) at the maximum firing
strength among the term's rules, starting from the all-zero curve; with
no activated rules the aggregate stays all-zero and `_defuzzify_output`
returns 0 for every method. -/
theorem C3_aggregation_pointwise_max (activated : Activations)
    (_hne : ∀ p ∈ activated, p.2 ≠ []) :
    (aggregated_mf activated).length = 101 ∧
    (∀ i : ℕ, i < 101 → (aggregated_mf activated).getD i 0 = agg_spec_at activated i) ∧
    aggregated_mf [] = List.replicate 101 0 ∧
    (∀ method, defuzzify_output method [] = 0) := by
  have hpl : percent_universe.length = 101 := by
    with_unfolding_all decide
  have hlen : (List.replicate percent_universe.length (0 : ℚ)).length = 101 := by
    rw [List.length_replicate, hpl]
  refine ⟨?_, ?_, ?_, ?_⟩
  · exact (aggregated_mf_go 0 (by norm_num) activated _ hlen).1
  · intro i hi
    have h := (aggregated_mf_go i hi activated _ hlen).2
    unfold aggregated_mf
    rw [h, agg_spec_at]
    congr 1
    rw [List.getD_eq_getElem?_getD, List.getElem?_replicate, hpl, if_pos hi]
    rfl
  · unfold aggregated_mf
    rw [List.foldl_nil, hpl]
  · intro method
    rfl

theorem C3_aggregation_pointwise_max_witness :
    (aggregated_mf [("highly_recommended", [(1, 5/8)])]).getD 90 0 =
      agg_spec_at [("highly_recommended", [(1, 5/8)])] 90 := by
  exact (C3_aggregation_pointwise_max [("highly_recommended", [(1, 5/8)])]
    (by simp)).2.1 90 (by norm_num)

/-! ## Claim C6: input validation and state preservation -/

theorem evaluate_rule_core_ok (r : FuzzyRule) (m : MembershipMap)
    (h1 : r.antecedents ≠ []) (h2 : r.operator ≠ .NOT) :
    ∃ o, evaluate_rule_core r m = .ok o := by
  unfold evaluate_rule_core
  rw [gather_antecedents_eq]
  by_cases hall : r.antecedents.all (fun c => (lookup_degree m c).isSome)
  · rw [if_pos hall]
    cases hcs : r.antecedents with
    | nil => exact absurd hcs h1
    | cons c cs =>
      simp only [List.map_cons]
      cases hoc : r.operator with
      | AND => exact ⟨_, rfl⟩
      | OR => exact ⟨_, rfl⟩
      | NOT => exact absurd hoc h2
  · rw [if_neg hall]
    exact ⟨none, rfl⟩

theorem evaluate_rule_st_ok (r : FuzzyRule) (m : MembershipMap) (stats : StatsMap)
    (h1 : r.antecedents ≠ []) (h2 : r.operator ≠ .NOT) :
    ∃ s stats', evaluate_rule_st r m stats = .ok (s, stats') := by
  obtain ⟨o, ho⟩ := evaluate_rule_core_ok r m h1 h2
  unfold evaluate_rule_st
  rw [ho]
  cases o with
  | none => exact ⟨0, stats, rfl⟩
  | some s => exact ⟨s, _, rfl⟩

theorem evaluate_all_go_st_ok (m : MembershipMap) :
    ∀ (rules : List FuzzyRule) (stats : StatsMap) (acc : Activations),
      (∀ r ∈ rules, r.antecedents ≠ [] ∧ r.operator ≠ .NOT) →
      ∃ res stats', evaluate_all_go_st m rules stats acc = (.ok res, stats') := by
  intro rules
  induction rules with
  | nil => intro stats acc _; exact ⟨acc, stats, rfl⟩
  | cons r rs ih =>
    intro stats acc hr
    obtain ⟨s, stats', hst⟩ :=
      evaluate_rule_st_ok r m stats (hr r (by simp)).1 (hr r (by simp)).2
    rw [evaluate_all_go_st, hst]
    exact ih stats' _ (fun r' h' => hr r' (by simp [h']))

theorem evaluate_all_rules_st_ok (rules : List FuzzyRule) (m : MembershipMap)
    (stats : StatsMap) (h : ∀ r ∈ rules, r.antecedents ≠ [] ∧ r.operator ≠ .NOT) :
    ∃ res stats', evaluate_all_rules_st rules m stats = (.ok res, stats') := by
  obtain ⟨res, stats', hgo⟩ := evaluate_all_go_st_ok m rules stats [] h
  unfold evaluate_all_rules_st
  rw [hgo]
  exact ⟨sort_activations res, stats', rfl⟩

/-- C6: a crisp input outside its variable's declared range makes
`recommend_movie` return the range error naming that input and its bounds
with the engine state (rule base, statistics, history) returned unchanged
and no result produced; for in-range inputs on a well-formed rule base a
result is produced and no range error is raised. -/
theorem C6_out_of_range_rejected_state_unchanged (st : EngineState) (ur ap gm : ℚ) :
    (¬(1 ≤ ur ∧ ur ≤ 10) →
      recommend_movie st ur ap gm = (.error "User rating must be between 1.0 and 10.0", st)) ∧
    ((1 ≤ ur ∧ ur ≤ 10) → ¬(0 ≤ ap ∧ ap ≤ 100) →
      recommend_movie st ur ap gm =
        (.error "Actor popularity must be between 0.0 and 100.0", st)) ∧
    ((1 ≤ ur ∧ ur ≤ 10) → (0 ≤ ap ∧ ap ≤ 100) → ¬(0 ≤ gm ∧ gm ≤ 100) →
      recommend_movie st ur ap gm = (.error "Genre match must be between 0.0 and 100.0", st)) ∧
    ((1 ≤ ur ∧ ur ≤ 10) → (0 ≤ ap ∧ ap ≤ 100) → (0 ≤ gm ∧ gm ≤ 100) →
      (∀ r ∈ st.rules, r.antecedents ≠ [] ∧ r.operator ≠ .NOT) →
      ∃ res st', recommend_movie st ur ap gm = (.ok res, st')) := by
  refine ⟨?_, ?_, ?_, ?_⟩
  · intro h
    unfold recommend_movie fuzzify_inputs validate_inputs
    rw [if_pos h]
  · intro h1 h2
    unfold recommend_movie fuzzify_inputs validate_inputs
    rw [if_neg (not_not_intro h1), if_pos h2]
  · intro h1 h2 h3
    unfold recommend_movie fuzzify_inputs validate_inputs
    rw [if_neg (not_not_intro h1), if_neg (not_not_intro h2), if_pos h3]
  · intro h1 h2 h3 hr
    have hfz : fuzzify_inputs ur ap gm = .ok (fuzzify_inputs_raw ur ap gm) := by
      unfold fuzzify_inputs validate_inputs
      rw [if_neg (not_not_intro h1), if_neg (not_not_intro h2), if_neg (not_not_intro h3)]
    obtain ⟨res, stats', heval⟩ :=
      evaluate_all_rules_st_ok st.rules (fuzzify_inputs_raw ur ap gm) st.rule_statistics hr
    unfold recommend_movie
    rw [hfz]
    dsimp only
    rw [heval]
    exact ⟨_, _, rfl⟩

theorem C6_out_of_range_rejected_state_unchanged_witness :
    recommend_movie (default_engine .centroid) 0 50 50 =
      (.error "User rating must be between 1.0 and 10.0", default_engine .centroid) :=
  (C6_out_of_range_rejected_state_unchanged (default_engine .centroid) 0 50 50).1
    (by norm_num)

/-! ## Claim C7: batch processing -/

theorem evaluate_rule_st_fst (r : FuzzyRule) (m : MembershipMap) (stats : StatsMap) :
    (evaluate_rule_st r m stats).map Prod.fst = evaluate_rule r m := by
  unfold evaluate_rule_st evaluate_rule
  cases evaluate_rule_core r m with
  | error e => rfl
  | ok o =>
    cases o with
    | none => rfl
    | some s => rfl

theorem evaluate_all_go_st_fst (m : MembershipMap) :
    ∀ (rules : List FuzzyRule) (stats : StatsMap) (acc : Activations),
      (evaluate_all_go_st m rules stats acc).1 = evaluate_all_go m rules acc := by
  intro rules
  induction rules with
  | nil => intro stats acc; rfl
  | cons r rs ih =>
    intro stats acc
    rw [evaluate_all_go_st, evaluate_all_go]
    have hfst := evaluate_rule_st_fst r m stats
    cases hst : evaluate_rule_st r m stats with
    | error e =>
      rw [hst] at hfst
      rw [← hfst]
      exact rfl
    | ok p =>
      obtain ⟨s, stats'⟩ := p
      rw [hst] at hfst
      rw [← hfst]
      exact ih stats' _

theorem evaluate_all_rules_st_fst (rules : List FuzzyRule) (m : MembershipMap)
    (stats : StatsMap) :
    (evaluate_all_rules_st rules m stats).1 = evaluate_all_rules rules m := by
  unfold evaluate_all_rules_st evaluate_all_rules
  rw [← evaluate_all_go_st_fst m rules stats []]
  cases evaluate_all_go_st m rules stats [] with
  | mk e stats' =>
    cases e with
    | error e0 => rfl
    | ok res => rfl

theorem recommend_movie_fst (st : EngineState) (ur ap gm : ℚ) :
    (recommend_movie st ur ap gm).1 =
      recommend_value st.rules st.defuzzification_method ur ap gm := by
  unfold recommend_movie recommend_value
  cases fuzzify_inputs ur ap gm with
  | error e => rfl
  | ok m =>
    dsimp only
    have hfst := evaluate_all_rules_st_fst st.rules m st.rule_statistics
    cases hst : evaluate_all_rules_st st.rules m st.rule_statistics with
    | mk e stats' =>
      rw [hst] at hfst
      rw [← hfst]
      cases e with
      | error e0 => rfl
      | ok acts => rfl

theorem recommend_movie_preserves (st : EngineState) (ur ap gm : ℚ) :
    (recommend_movie st ur ap gm).2.rules = st.rules ∧
    (recommend_movie st ur ap gm).2.defuzzification_method = st.defuzzification_method := by
  unfold recommend_movie
  cases fuzzify_inputs ur ap gm with
  | error e => exact ⟨rfl, rfl⟩
  | ok m =>
    dsimp only
    cases evaluate_all_rules_st st.rules m st.rule_statistics with
    | mk e stats' =>
      cases e with
      | error e0 => exact ⟨rfl, rfl⟩
      | ok acts => exact ⟨rfl, rfl⟩

theorem batch_recommend_go (inputs : List (ℚ × ℚ × ℚ)) :
    ∀ (st : EngineState) (acc : List RecommendationResult),
      (inputs.foldl
        (fun acc t =>
          match recommend_movie acc.2 t.1 t.2.1 t.2.2 with
          | (.ok r, st') => (acc.1 ++ [r], st')
          | (.error _, st') => (acc.1 ++ [placeholder_result st'.defuzzification_method], st'))
        (acc, st)).1 =
      acc ++ inputs.map (item_result st.rules st.defuzzification_method) := by
  induction inputs with
  | nil => intro st acc; simp
  | cons t ts ih =>
    intro st acc
    simp only [List.foldl_cons, List.map_cons]
    have hfst := recommend_movie_fst st t.1 t.2.1 t.2.2
    have hpres := recommend_movie_preserves st t.1 t.2.1 t.2.2
    cases hrec : recommend_movie st t.1 t.2.1 t.2.2 with
    | mk e st' =>
      rw [hrec] at hfst hpres
      cases e with
      | ok r =>
        have hitem : item_result st.rules st.defuzzification_method t = r := by
          unfold item_result
          rw [← hfst]
        rw [ih st' (acc ++ [r]), hpres.1, hpres.2, hitem]
        simp
      | error e0 =>
        have hitem : item_result st.rules st.defuzzification_method t =
            placeholder_result st.defuzzification_method := by
          unfold item_result
          rw [← hfst]
        rw [ih st' _, hpres.1, hpres.2, hitem]
        simp

/-- C7: batch_recommend returns exactly one result per input, in input
order (it equals the per-item map of `item_result` over the inputs, which
is independent of the evolving engine state); an item whose processing
fails — in particular an out-of-range input — contributes the zero-score,
zero-confidence placeholder at its position while the other items are
still processed. -/
theorem C7_batch_per_item_isolation (st : EngineState) (inputs : List (ℚ × ℚ × ℚ)) :
    (batch_recommend st inputs).1 =
      inputs.map (item_result st.rules st.defuzzification_method) ∧
    (batch_recommend st inputs).1.length = inputs.length ∧
    (∀ t : ℚ × ℚ × ℚ,
      except_is_ok (recommend_value st.rules st.defuzzification_method t.1 t.2.1 t.2.2) = false →
      item_result st.rules st.defuzzification_method t =
        placeholder_result st.defuzzification_method) ∧
    (∀ (i : ℕ) (t : ℚ × ℚ × ℚ), inputs[i]? = some t →
      except_is_ok (recommend_value st.rules st.defuzzification_method t.1 t.2.1 t.2.2) = false →
      (batch_recommend st inputs).1[i]? =
        some (placeholder_result st.defuzzification_method)) ∧
    (∀ t : ℚ × ℚ × ℚ, except_is_ok (validate_inputs t.1 t.2.1 t.2.2) = false →
      except_is_ok (recommend_value st.rules st.defuzzification_method t.1 t.2.1 t.2.2) = false) := by
  have hmap : (batch_recommend st inputs).1 =
      inputs.map (item_result st.rules st.defuzzification_method) := by
    unfold batch_recommend
    exact batch_recommend_go inputs st []
  have hitem : ∀ t : ℚ × ℚ × ℚ,
      except_is_ok (recommend_value st.rules st.defuzzification_method t.1 t.2.1 t.2.2) = false →
      item_result st.rules st.defuzzification_method t =
        placeholder_result st.defuzzification_method := by
    intro t hfail
    unfold item_result
    cases hv : recommend_value st.rules st.defuzzification_method t.1 t.2.1 t.2.2 with
    | error e => rfl
    | ok r => rw [hv] at hfail; simp [except_is_ok] at hfail
  refine ⟨hmap, by rw [hmap]; simp, hitem, ?_, ?_⟩
  · intro i t hget hfail
    rw [hmap, List.getElem?_map, hget]
    simp only [Option.map_some']
    rw [hitem t hfail]
  · intro t hval
    unfold recommend_value fuzzify_inputs
    cases hvv : validate_inputs t.1 t.2.1 t.2.2 with
    | error e => rfl
    | ok u => rw [hvv] at hval; simp [except_is_ok] at hval

theorem C7_batch_per_item_isolation_witness :
    (batch_recommend (default_engine .centroid) [(0, 50, 50)]).1 =
      [placeholder_result .centroid] := by
  have h := C7_batch_per_item_isolation (default_engine .centroid) [(0, 50, 50)]
  have hfail : except_is_ok (recommend_value (default_engine .centroid).rules
      (default_engine .centroid).defuzzification_method 0 50 50) = false := by
    with_unfolding_all decide
  rw [h.1]
  simp only [List.map_cons, List.map_nil]
  rw [h.2.2.1 (0, 50, 50) hfail]
  rfl

/-! ## Claim C4: defuzzification safety -/

theorem percent_universe_length : percent_universe.length = 101 := by
  with_unfolding_all decide

theorem percent_mem : ∀ u ∈ percent_universe, 0 ≤ u ∧ u ≤ 100 := by
  intro u hu
  rw [percent_universe] at hu
  obtain ⟨k, hk, rfl⟩ := List.mem_map.mp hu
  have hk2 := List.mem_range.mp hk
  have hk' : k ≤ 100 := by omega
  exact ⟨Nat.cast_nonneg k, by exact_mod_cast hk'⟩

theorem percent_universe_getD (i : ℕ) (hi : i < 101) :
    percent_universe.getD i 0 = (i : ℚ) := by
  rw [percent_universe,
    map_getD (fun k : ℕ => (k : ℚ)) 0 0 _ i (by rw [List.length_range]; exact hi)]
  congr 1
  rw [List.getD_eq_getElem?_getD,
    List.getElem?_eq_getElem (by rw [List.length_range]; exact hi)]
  simp [List.getElem_range]

theorem headD_bounds (us : List ℚ) (hus : ∀ u ∈ us, 0 ≤ u ∧ u ≤ 100) :
    0 ≤ us.headD 0 ∧ us.headD 0 ≤ 100 := by
  cases us with
  | nil => norm_num
  | cons a t => exact hus a (by simp)

theorem getLastD_bounds (us : List ℚ) (hus : ∀ u ∈ us, 0 ≤ u ∧ u ≤ 100) :
    0 ≤ us.getLastD 0 ∧ us.getLastD 0 ≤ 100 := by
  cases hc : us with
  | nil => norm_num
  | cons a t =>
    rw [← hc]
    exact hus _ (getLastD_mem us 0 (by rw [hc]; simp))

theorem bisector_go_bounds (half : ℚ) :
    ∀ (ms us : List ℚ) (cum : ℚ), (∀ u ∈ us, 0 ≤ u ∧ u ≤ 100) →
      0 ≤ bisector_go half cum ms us ∧ bisector_go half cum ms us ≤ 100 := by
  intro ms
  induction ms with
  | nil => intro us cum hus; exact getLastD_bounds us hus
  | cons m0 ms' ih =>
    intro us cum hus
    cases ms' with
    | nil => exact getLastD_bounds us hus
    | cons m1 ms'' =>
      cases us with
      | nil => exact getLastD_bounds [] (by simp)
      | cons u0 us' =>
        cases us' with
        | nil => exact getLastD_bounds [u0] (by simpa using hus u0 (by simp))
        | cons u1 us'' =>
          rw [bisector_go]
          split
          · exact hus u0 (by simp)
          · exact ih (u1 :: us'') _ (fun u hu => hus u (by simp [hu]))

theorem maxima_points_subset (univ mf : List ℚ) :
    ∀ x ∈ maxima_points univ mf, x ∈ univ := by
  intro x hx
  unfold maxima_points at hx
  obtain ⟨p, hp, rfl⟩ := List.mem_map.mp hx
  obtain ⟨a, b⟩ := p
  exact (List.of_mem_zip (List.mem_filter.mp hp).1).1

theorem mean_bounds (l : List ℚ) (h : ∀ x ∈ l, 0 ≤ x ∧ x ≤ 100) :
    0 ≤ l.sum / (l.length : ℚ) ∧ l.sum / (l.length : ℚ) ≤ 100 := by
  cases l with
  | nil => norm_num
  | cons a t =>
    have hsum0 : 0 ≤ (a :: t).sum := List.sum_nonneg (fun x hx => (h x hx).1)
    have hsum1 : (a :: t).sum ≤ 100 * ((a :: t).length : ℚ) :=
      list_sum_le_mul_length 100 _ (fun x hx => (h x hx).2)
    have hlen : (0 : ℚ) < ((a :: t).length : ℚ) := by
      have : 0 < (a :: t).length := by simp
      exact_mod_cast this
    constructor
    · exact div_nonneg hsum0 (le_of_lt hlen)
    · rw [div_le_iff₀ hlen]
      linarith

set_option maxRecDepth 100000 in
/-- C4: over the 0..100 output grid, each of the five defuzzification
methods maps any membership curve with values in `[0,1]` to a value in
`[0,100]`; on the all-zero curve every method returns exactly 0 (the
zero-mass guards prevent any division by zero); and the centroid equals
the spec formula `Σ x·μ(x) / Σ μ(x)` with the zero-sum case defined as 0. -/
theorem C4_defuzzification_in_range (mf : List ℚ) (hlen : mf.length = 101)
    (hmf : ∀ y ∈ mf, 0 ≤ y ∧ y ≤ 1) :
    (0 ≤ centroid_defuzzification percent_universe mf ∧
      centroid_defuzzification percent_universe mf ≤ 100) ∧
    (0 ≤ bisector_defuzzification percent_universe mf ∧
      bisector_defuzzification percent_universe mf ≤ 100) ∧
    (0 ≤ mom_defuzzification percent_universe mf ∧
      mom_defuzzification percent_universe mf ≤ 100) ∧
    (0 ≤ som_defuzzification percent_universe mf ∧
      som_defuzzification percent_universe mf ≤ 100) ∧
    (0 ≤ lom_defuzzification percent_universe mf ∧
      lom_defuzzification percent_universe mf ≤ 100) ∧
    centroid_defuzzification percent_universe mf = centroid_spec mf ∧
    (centroid_defuzzification percent_universe (List.replicate 101 0) = 0 ∧
     bisector_defuzzification percent_universe (List.replicate 101 0) = 0 ∧
     mom_defuzzification percent_universe (List.replicate 101 0) = 0 ∧
     som_defuzzification percent_universe (List.replicate 101 0) = 0 ∧
     lom_defuzzification percent_universe (List.replicate 101 0) = 0) := by
  have hmf0 : ∀ y ∈ mf, 0 ≤ y := fun y hy => (hmf y hy).1
  have hmax_mem : ∀ x ∈ maxima_points percent_universe mf, 0 ≤ x ∧ x ≤ 100 :=
    fun x hx => percent_mem _ (maxima_points_subset _ _ x hx)
  refine ⟨?_, ?_, ?_, ?_, ?_, ?_, by with_unfolding_all decide⟩
  · unfold centroid_defuzzification
    split
    · norm_num
    · rename_i hz
      have hpos : 0 < mf.sum := lt_of_le_of_ne (List.sum_nonneg hmf0) (Ne.symm hz)
      constructor
      · exact div_nonneg
          (zipWith_mul_sum_nonneg percent_universe mf (fun u hu => (percent_mem u hu).1) hmf0)
          (le_of_lt hpos)
      · rw [div_le_iff₀ hpos]
        have := zipWith_mul_sum_le 100 (by norm_num) percent_universe mf
          (fun u hu => (percent_mem u hu).2) hmf0
        linarith
  · unfold bisector_defuzzification
    split
    · norm_num
    · exact bisector_go_bounds _ mf percent_universe 0 percent_mem
  · unfold mom_defuzzification
    split
    · norm_num
    · exact mean_bounds _ hmax_mem
  · unfold som_defuzzification
    split
    · norm_num
    · exact headD_bounds _ hmax_mem
  · unfold lom_defuzzification
    split
    · norm_num
    · exact getLastD_bounds _ hmax_mem
  · unfold centroid_defuzzification centroid_spec
    have hsum : mf.sum = ∑ i in Finset.range 101, mf.getD i 0 := by
      rw [list_sum_eq_range_sum, hlen]
    have hzip : (List.zipWith (· * ·) percent_universe mf).sum =
        ∑ i in Finset.range 101, (i : ℚ) * mf.getD i 0 := by
      have hzlen : (List.zipWith (· * ·) percent_universe mf).length = 101 := by
        rw [List.length_zipWith, percent_universe_length, hlen]
        exact min_self 101
      rw [list_sum_eq_range_sum, hzlen]
      apply Finset.sum_congr rfl
      intro i hi
      have hi' : i < 101 := List.mem_range.mp hi
      rw [zipWith_getD _ _ _ i (by rw [percent_universe_length]; exact hi')
        (by rw [hlen]; exact hi')]
      rw [percent_universe_getD i hi']
    rw [hsum, hzip]

theorem C4_defuzzification_in_range_witness :
    0 ≤ centroid_defuzzification percent_universe (List.replicate 101 (1/2)) ∧
    centroid_defuzzification percent_universe (List.replicate 101 (1/2)) ≤ 100 := by
  exact (C4_defuzzification_in_range (List.replicate 101 (1/2))
    (by simp) (by intro y hy; rw [List.eq_of_mem_replicate hy]; norm_num)).1

/-! ## Claim C5: confidence formula and range

First the membership-degree bounds: every degree produced by
fuzzification lies in `[0,1]` (sampled shapes are bounded, interpolation
is a convex combination). -/

theorem trimfAt_bounds (a b c x : ℚ) (_hab : a ≤ b) (_hbc : b ≤ c) :
    0 ≤ trimfAt a b c x ∧ trimfAt a b c x ≤ 1 := by
  unfold trimfAt
  split_ifs with h1 h2 h3
  · norm_num
  · obtain ⟨ha, hb⟩ := h2
    constructor
    · exact div_nonneg (by linarith) (by linarith)
    · rw [div_le_one (by linarith)]
      linarith
  · obtain ⟨hb, hc⟩ := h3
    constructor
    · exact div_nonneg (by linarith) (by linarith)
    · rw [div_le_one (by linarith)]
      linarith
  · norm_num

theorem trapmfAt_bounds (a b c d x : ℚ) (hab : a ≤ b) (_hbc : b ≤ c) (hcd : c ≤ d) :
    0 ≤ trapmfAt a b c d x ∧ trapmfAt a b c d x ≤ 1 := by
  unfold trapmfAt
  split_ifs with h1 h2 h3
  · norm_num
  · exact trimfAt_bounds c c d x (le_refl c) hcd
  · exact trimfAt_bounds a b b x hab (le_refl b)
  · norm_num

theorem interp_bounds (x : ℚ) :
    ∀ (xs ys : List ℚ), ascending xs = true →
      (∀ u ∈ xs.head?, u < x) → (∀ y ∈ ys, 0 ≤ y ∧ y ≤ 1) →
      0 ≤ interp x xs ys ∧ interp x xs ys ≤ 1 := by
  intro xs
  induction xs with
  | nil =>
    intro ys _ _ _
    rw [interp]
    · norm_num
    · simp
  | cons x0 xs' ih =>
    intro ys hasc hhead hys
    cases xs' with
    | nil =>
      rw [interp]
      · norm_num
      · simp
    | cons x1 xs'' =>
      cases ys with
      | nil =>
        rw [interp]
        · norm_num
        · simp
      | cons y0 ys' =>
        cases ys' with
        | nil =>
          rw [interp]
          · norm_num
          · simp
        | cons y1 ys'' =>
          rw [interp]
          have hpair : (x0 < x1) ∧ ascending (x1 :: xs'') = true := by
            rw [ascending] at hasc
            simpa using hasc
          have h01 : x0 < x1 := hpair.1
          have hasc' : ascending (x1 :: xs'') = true := hpair.2
          have h0x : x0 < x := hhead x0 (by simp)
          split_ifs with hxle
          · have hy0 := hys y0 (by simp)
            have hy1 := hys y1 (by simp)
            have htpos : 0 < x1 - x0 := by linarith
            have ht0 : 0 < (x - x0) / (x1 - x0) := div_pos (by linarith) htpos
            have ht1 : (x - x0) / (x1 - x0) ≤ 1 := by
              rw [div_le_one htpos]
              linarith
            have hval : y0 + (y1 - y0) * (x - x0) / (x1 - x0) =
                y0 + (y1 - y0) * ((x - x0) / (x1 - x0)) := by
              ring
            rw [hval]
            constructor
            · nlinarith [mul_nonneg ht0.le hy1.1,
                mul_nonneg (sub_nonneg.mpr ht1) hy0.1]
            · nlinarith [mul_nonneg ht0.le (sub_nonneg.mpr hy1.2),
                mul_nonneg (sub_nonneg.mpr ht1) (sub_nonneg.mpr hy0.2)]
          · refine ih (y1 :: ys'') hasc' ?_ (fun y hy => hys y (by simp [hy]))
            intro u hu
            simp at hu
            subst hu
            linarith [lt_of_not_le hxle]

theorem calculate_membership_degree_bounds (x : ℚ) (u mfv : List ℚ)
    (hu : ascending u = true) (hmf : ∀ y ∈ mfv, 0 ≤ y ∧ y ≤ 1) :
    0 ≤ calculate_membership_degree x u mfv ∧ calculate_membership_degree x u mfv ≤ 1 := by
  unfold calculate_membership_degree
  split_ifs with h1 h2
  · cases mfv with
    | nil => norm_num
    | cons y t => exact hmf y (by simp)
  · cases hc : mfv with
    | nil => norm_num
    | cons y t =>
      rw [← hc]
      exact hmf _ (getLastD_mem mfv 0 (by rw [hc]; simp))
  · refine interp_bounds x u mfv hu ?_ hmf
    intro u0 hu0
    cases u with
    | nil => simp at hu0
    | cons a t =>
      simp at hu0
      subst hu0
      push_neg at h1
      simpa using h1

theorem sampled_trimf_bounds (a b c : ℚ) (hab : a ≤ b) (hbc : b ≤ c) (u : List ℚ) :
    ∀ y ∈ u.map (trimfAt a b c), 0 ≤ y ∧ y ≤ 1 := by
  intro y hy
  obtain ⟨x, _, rfl⟩ := List.mem_map.mp hy
  exact trimfAt_bounds a b c x hab hbc

theorem sampled_trapmf_bounds (a b c d : ℚ) (hab : a ≤ b) (hbc : b ≤ c) (hcd : c ≤ d)
    (u : List ℚ) : ∀ y ∈ u.map (trapmfAt a b c d), 0 ≤ y ∧ y ≤ 1 := by
  intro y hy
  obtain ⟨x, _, rfl⟩ := List.mem_map.mp hy
  exact trapmfAt_bounds a b c d x hab hbc hcd

theorem user_rating_var_arrays :
    ∀ tp ∈ user_rating_var.terms, ∀ y ∈ tp.2, 0 ≤ y ∧ y ≤ 1 := by
  intro tp htp
  simp only [user_rating_var, List.mem_cons, List.not_mem_nil, or_false] at htp
  rcases htp with h | h | h
  · rw [congrArg Prod.snd h]
    exact sampled_trimf_bounds 1 1 4 (by norm_num) (by norm_num) _
  · rw [congrArg Prod.snd h]
    exact sampled_trimf_bounds 2 (11/2) 8 (by norm_num) (by norm_num) _
  · rw [congrArg Prod.snd h]
    exact sampled_trimf_bounds 6 10 10 (by norm_num) (by norm_num) _

theorem actor_popularity_var_arrays :
    ∀ tp ∈ actor_popularity_var.terms, ∀ y ∈ tp.2, 0 ≤ y ∧ y ≤ 1 := by
  intro tp htp
  simp only [actor_popularity_var, List.mem_cons, List.not_mem_nil, or_false] at htp
  rcases htp with h | h | h
  · rw [congrArg Prod.snd h]
    exact sampled_trapmf_bounds 0 0 20 40 (by norm_num) (by norm_num) (by norm_num) _
  · rw [congrArg Prod.snd h]
    exact sampled_trapmf_bounds 20 40 60 80 (by norm_num) (by norm_num) (by norm_num) _
  · rw [congrArg Prod.snd h]
    exact sampled_trapmf_bounds 60 80 100 100 (by norm_num) (by norm_num) (by norm_num) _

theorem genre_match_var_arrays :
    ∀ tp ∈ genre_match_var.terms, ∀ y ∈ tp.2, 0 ≤ y ∧ y ≤ 1 := by
  intro tp htp
  simp only [genre_match_var, List.mem_cons, List.not_mem_nil, or_false] at htp
  rcases htp with h | h | h
  · rw [congrArg Prod.snd h]
    exact sampled_trimf_bounds 0 0 35 (by norm_num) (by norm_num) _
  · rw [congrArg Prod.snd h]
    exact sampled_trimf_bounds 20 50 80 (by norm_num) (by norm_num) _
  · rw [congrArg Prod.snd h]
    exact sampled_trimf_bounds 65 100 100 (by norm_num) (by norm_num) _

theorem fuzzify_var_bounds (v : LinguisticVariable) (x : ℚ)
    (hasc : ascending v.univ = true)
    (harr : ∀ tp ∈ v.terms, ∀ y ∈ tp.2, 0 ≤ y ∧ y ≤ 1) :
    ∀ q ∈ fuzzify_var v x, 0 ≤ q.2 ∧ q.2 ≤ 1 := by
  intro q hq
  obtain ⟨tp, htp, rfl⟩ := List.mem_map.mp hq
  exact calculate_membership_degree_bounds x v.univ tp.2 hasc (harr tp htp)

theorem fuzzify_inputs_raw_bounds (ur ap gm : ℚ) :
    ∀ p ∈ fuzzify_inputs_raw ur ap gm, ∀ q ∈ p.2, 0 ≤ q.2 ∧ q.2 ≤ 1 := by
  have hasc1 : ascending user_rating_universe = true := by with_unfolding_all decide
  have hasc2 : ascending percent_universe = true := by with_unfolding_all decide
  intro p hp
  simp only [fuzzify_inputs_raw, List.mem_cons, List.not_mem_nil, or_false] at hp
  rcases hp with h | h | h
  · rw [congrArg Prod.snd h]
    exact fuzzify_var_bounds user_rating_var ur hasc1 user_rating_var_arrays
  · rw [congrArg Prod.snd h]
    exact fuzzify_var_bounds actor_popularity_var ap hasc2 actor_popularity_var_arrays
  · rw [congrArg Prod.snd h]
    exact fuzzify_var_bounds genre_match_var gm hasc2 genre_match_var_arrays

/-! Bounds on firing strengths and the structure of the activation map. -/

theorem lookup_degree_bounds (m : MembershipMap)
    (hm : ∀ p ∈ m, ∀ q ∈ p.2, 0 ≤ q.2 ∧ q.2 ≤ 1) (c : FuzzyCondition) :
    ∀ d, lookup_degree m c = some d → 0 ≤ d ∧ d ≤ 1 := by
  intro d h
  cases hv : m.lookup c.variable_name with
  | none => simp [lookup_degree, hv] at h
  | some ts =>
    cases ht : ts.lookup c.linguistic_term with
    | none => simp [lookup_degree, hv, ht] at h
    | some d0 =>
      have hd0 := hm _ (mem_of_lookup _ _ _ hv) _ (mem_of_lookup _ _ _ ht)
      simp only at hd0
      simp [lookup_degree, hv, ht] at h
      rw [← h]
      split_ifs
      · constructor <;> linarith [hd0.1, hd0.2]
      · exact hd0

theorem gather_bounds (m : MembershipMap)
    (hm : ∀ p ∈ m, ∀ q ∈ p.2, 0 ≤ q.2 ∧ q.2 ≤ 1) (cs : List FuzzyCondition)
    (ds : List ℚ) (hg : gather_antecedents m cs = some ds) :
    ∀ d ∈ ds, 0 ≤ d ∧ d ≤ 1 := by
  rw [gather_antecedents_eq] at hg
  by_cases hall : cs.all (fun c => (lookup_degree m c).isSome)
  · rw [if_pos hall] at hg
    have hds : ds = cs.map (cond_degree m) := (Option.some.inj hg).symm
    subst hds
    intro d hd
    obtain ⟨c, hc, rfl⟩ := List.mem_map.mp hd
    have hsome : (lookup_degree m c).isSome := by
      have := List.all_eq_true.mp hall c hc
      simpa using this
    obtain ⟨d0, hd0⟩ := Option.isSome_iff_exists.mp hsome
    rw [← cond_degree_of_lookup m c d0 hd0]
    exact lookup_degree_bounds m hm c d0 hd0
  · rw [if_neg hall] at hg
    simp at hg

theorem evaluate_rule_ok_bounds (r : FuzzyRule) (m : MembershipMap)
    (hm : ∀ p ∈ m, ∀ q ∈ p.2, 0 ≤ q.2 ∧ q.2 ≤ 1)
    (hconf : 0 ≤ r.confidence ∧ r.confidence ≤ 1) :
    ∀ s, evaluate_rule r m = .ok s → 0 ≤ s ∧ s ≤ 1 := by
  intro s h
  unfold evaluate_rule evaluate_rule_core at h
  cases hg : gather_antecedents m r.antecedents with
  | none =>
    rw [hg] at h
    simp at h
    rw [← h]
    norm_num
  | some ds =>
    rw [hg] at h
    cases ds with
    | nil => simp at h
    | cons d0 ds' =>
      have hbd := gather_bounds m hm r.antecedents (d0 :: ds') hg
      cases hoc : r.operator
      all_goals rw [hoc] at h
      case AND =>
        simp at h
        rw [← h]
        have hfold := foldl_min_bounds 0 1 ds' d0 (hbd d0 (by simp)).1
          (hbd d0 (by simp)).2 (fun y hy => hbd y (by simp [hy]))
        exact ⟨mul_nonneg hfold.1 hconf.1, mul_le_one₀ hfold.2 hconf.1 hconf.2⟩
      case OR =>
        simp at h
        rw [← h]
        have hfold := foldl_max_bounds 0 1 ds' d0 (hbd d0 (by simp)).1
          (hbd d0 (by simp)).2 (fun y hy => hbd y (by simp [hy]))
        exact ⟨mul_nonneg hfold.1 hconf.1, mul_le_one₀ hfold.2 hconf.1 hconf.2⟩
      case NOT => simp at h

/-- The invariant carried by the activation map: every consequent group is
nonempty and holds strengths in `(0, 1]`. -/
def ActInv (p : String × List (ℕ × ℚ)) : Prop :=
  p.2 ≠ [] ∧ ∀ q ∈ p.2, 0 < q.2 ∧ q.2 ≤ 1

theorem add_activation_inv (acc : Activations) (term : String) (rid : ℕ) (s : ℚ)
    (hs : 0 < s ∧ s ≤ 1) (hacc : ∀ p ∈ acc, ActInv p) :
    ∀ p ∈ add_activation acc term rid s, ActInv p := by
  intro p hp
  unfold add_activation at hp
  split_ifs at hp with hany
  · obtain ⟨p0, hp0, rfl⟩ := List.mem_map.mp hp
    by_cases hterm : p0.1 = term
    · rw [if_pos hterm]
      refine ⟨by simp, ?_⟩
      intro q hq
      rcases List.mem_append.mp hq with h | h
      · exact (hacc p0 hp0).2 q h
      · simp at h
        rw [h]
        exact hs
    · rw [if_neg hterm]
      exact hacc p0 hp0
  · rcases List.mem_append.mp hp with h | h
    · exact hacc p h
    · simp at h
      rw [h]
      refine ⟨by simp, ?_⟩
      intro q hq
      simp at hq
      rw [hq]
      exact hs

theorem evaluate_all_go_inv (m : MembershipMap)
    (hm : ∀ p ∈ m, ∀ q ∈ p.2, 0 ≤ q.2 ∧ q.2 ≤ 1) :
    ∀ (rules : List FuzzyRule) (acc : Activations),
      (∀ r ∈ rules, 0 ≤ r.confidence ∧ r.confidence ≤ 1) →
      (∀ p ∈ acc, ActInv p) →
      ∀ res, evaluate_all_go m rules acc = .ok res → ∀ p ∈ res, ActInv p := by
  intro rules
  induction rules with
  | nil =>
    intro acc _ hacc res h
    have : acc = res := Except.ok.inj h
    rw [← this]
    exact hacc
  | cons r rs ih =>
    intro acc hconf hacc res h
    rw [evaluate_all_go] at h
    cases he : evaluate_rule r m with
    | error e => rw [he] at h; simp at h
    | ok s =>
      rw [he] at h
      have hsb := evaluate_rule_ok_bounds r m hm (hconf r (by simp)) s he
      refine ih _ (fun r' hr' => hconf r' (by simp [hr'])) ?_ res h
      by_cases hpos : 0 < s
      · rw [if_pos hpos]
        exact add_activation_inv acc _ _ s ⟨hpos, hsb.2⟩ hacc
      · rw [if_neg hpos]
        exact hacc

theorem insert_desc_mem (q : ℕ × ℚ) :
    ∀ (l : List (ℕ × ℚ)) (x : ℕ × ℚ), x ∈ insert_desc q l ↔ x = q ∨ x ∈ l := by
  intro l
  induction l with
  | nil => intro x; simp [insert_desc]
  | cons r rs ih =>
    intro x
    rw [insert_desc]
    split_ifs
    · simp [List.mem_cons]
    · rw [List.mem_cons, ih x, List.mem_cons]
      tauto

theorem sort_desc_fold_mem :
    ∀ (l acc : List (ℕ × ℚ)) (x : ℕ × ℚ),
      x ∈ l.foldl (fun acc q => insert_desc q acc) acc ↔ x ∈ acc ∨ x ∈ l := by
  intro l
  induction l with
  | nil => intro acc x; simp
  | cons q l ih =>
    intro acc x
    rw [List.foldl_cons, ih (insert_desc q acc) x, insert_desc_mem q acc x,
      List.mem_cons]
    tauto

theorem sort_desc_mem (l : List (ℕ × ℚ)) (x : ℕ × ℚ) :
    x ∈ sort_desc l ↔ x ∈ l := by
  unfold sort_desc
  rw [sort_desc_fold_mem l [] x]
  simp

theorem insert_desc_length (q : ℕ × ℚ) :
    ∀ l : List (ℕ × ℚ), (insert_desc q l).length = l.length + 1 := by
  intro l
  induction l with
  | nil => rfl
  | cons r rs ih =>
    rw [insert_desc]
    split_ifs
    · simp
    · simp [ih]

theorem sort_desc_fold_length :
    ∀ (l acc : List (ℕ × ℚ)),
      (l.foldl (fun acc q => insert_desc q acc) acc).length = acc.length + l.length := by
  intro l
  induction l with
  | nil => intro acc; simp
  | cons q l ih =>
    intro acc
    rw [List.foldl_cons, ih (insert_desc q acc), insert_desc_length]
    simp
    omega

theorem sort_desc_length (l : List (ℕ × ℚ)) : (sort_desc l).length = l.length := by
  unfold sort_desc
  rw [sort_desc_fold_length l []]
  simp

theorem sort_activations_inv (a : Activations) (h : ∀ p ∈ a, ActInv p) :
    ∀ p ∈ sort_activations a, ActInv p := by
  intro p hp
  unfold sort_activations at hp
  obtain ⟨p0, hp0, rfl⟩ := List.mem_map.mp hp
  have h0 := h p0 hp0
  constructor
  · intro hnil
    dsimp only at hnil
    have hlen := sort_desc_length p0.2
    rw [hnil] at hlen
    have hzero : p0.2.length = 0 := by simpa using hlen.symm
    exact h0.1 (List.length_eq_zero.mp hzero)
  · intro q hq
    dsimp only at hq
    exact h0.2 q ((sort_desc_mem p0.2 q).mp hq)

theorem evaluate_all_rules_inv (rules : List FuzzyRule) (m : MembershipMap)
    (acts : Activations) (hm : ∀ p ∈ m, ∀ q ∈ p.2, 0 ≤ q.2 ∧ q.2 ≤ 1)
    (hconf : ∀ r ∈ rules, 0 ≤ r.confidence ∧ r.confidence ≤ 1)
    (h : evaluate_all_rules rules m = .ok acts) : ∀ p ∈ acts, ActInv p := by
  unfold evaluate_all_rules at h
  cases hgo : evaluate_all_go m rules [] with
  | error e => rw [hgo] at h; simp [Except.map] at h
  | ok res =>
    rw [hgo] at h
    simp [Except.map] at h
    have hres := evaluate_all_go_inv m hm rules [] hconf (by simp) res hgo
    rw [← h]
    exact sort_activations_inv res hres

theorem evaluate_all_rules_ok (rules : List FuzzyRule) (m : MembershipMap)
    (h : ∀ r ∈ rules, r.antecedents ≠ [] ∧ r.operator ≠ .NOT) :
    ∃ acts, evaluate_all_rules rules m = .ok acts := by
  obtain ⟨res, stats', hst⟩ := evaluate_all_rules_st_ok rules m [] h
  have hfst := evaluate_all_rules_st_fst rules m []
  rw [hst] at hfst
  exact ⟨res, hfst.symm⟩

/-! Fold/flatten identities used to line the code's accumulations up with
the spec's formula. -/

theorem foldl_max_snd (l : List (ℕ × ℚ)) (init : ℚ) :
    l.foldl (fun a q => max a q.2) init = (l.map (fun q => q.2)).foldl max init :=
  (List.foldl_map _ _ _ _).symm

theorem nested_max_fold (acts : Activations) :
    ∀ init : ℚ,
      acts.foldl (fun acc p => p.2.foldl (fun a q => max a q.2) acc) init =
      ((acts.flatMap (fun p => p.2)).map (fun q => q.2)).foldl max init := by
  induction acts with
  | nil => intro init; rfl
  | cons p acts ih =>
    intro init
    simp only [List.foldl_cons, List.flatMap_cons, List.map_append, List.foldl_append]
    rw [ih, foldl_max_snd p.2 init]

theorem count_fold (acts : Activations) :
    ∀ init : ℕ,
      acts.foldl (fun acc p => acc + p.2.length) init =
      init + (acts.flatMap (fun p => p.2)).length := by
  induction acts with
  | nil => intro init; simp
  | cons p acts ih =>
    intro init
    simp only [List.foldl_cons, List.flatMap_cons, List.length_append]
    rw [ih]
    omega

theorem certainty_fold (m : MembershipMap) :
    ∀ init : ℚ,
      m.foldl (fun acc p => acc + max_terms_value p.2) init =
      init + (m.map (fun p => max_terms_value p.2)).sum := by
  induction m with
  | nil => intro init; simp
  | cons p m ih =>
    intro init
    simp only [List.foldl_cons, List.map_cons, List.sum_cons]
    rw [ih]
    ring

theorem max_terms_value_bounds (l : List (String × ℚ))
    (h : ∀ q ∈ l, 0 ≤ q.2 ∧ q.2 ≤ 1) :
    0 ≤ max_terms_value l ∧ max_terms_value l ≤ 1 := by
  cases l with
  | nil => unfold max_terms_value; norm_num
  | cons p ps =>
    have hdef : max_terms_value (p :: ps) = (ps.map (fun q => q.2)).foldl max p.2 := by
      rw [show max_terms_value (p :: ps) = ps.foldl (fun a q => max a q.2) p.2 from rfl]
      exact (List.foldl_map _ _ _ _).symm
    rw [hdef]
    refine foldl_max_bounds 0 1 _ p.2 (h p (by simp)).1 (h p (by simp)).2 ?_
    intro y hy
    obtain ⟨q, hq, rfl⟩ := List.mem_map.mp hy
    exact h q (by simp [hq])

theorem flat_strength_bounds (acts : Activations) (hinv : ∀ p ∈ acts, ActInv p) :
    ∀ y ∈ (acts.flatMap (fun p => p.2)).map (fun q => q.2), 0 ≤ y ∧ y ≤ 1 := by
  intro y hy
  obtain ⟨q, hq, rfl⟩ := List.mem_map.mp hy
  obtain ⟨p, hp, hq2⟩ := List.mem_flatMap.mp hq
  have := (hinv p hp).2 q hq2
  exact ⟨this.1.le, this.2⟩

theorem flatMap_ne_nil (acts : Activations) (hinv : ∀ p ∈ acts, ActInv p)
    (hne : acts ≠ []) : acts.flatMap (fun p => p.2) ≠ [] := by
  cases acts with
  | nil => exact absurd rfl hne
  | cons p rest =>
    simp only [List.flatMap_cons]
    intro hcontra
    have := List.append_eq_nil.mp hcontra
    exact (hinv p (by simp)).1 this.1

theorem flat_strengths_ne_nil (acts : Activations) (hinv : ∀ p ∈ acts, ActInv p)
    (hne : acts ≠ []) : (acts.flatMap (fun p => p.2)).map (fun q => q.2) ≠ [] := by
  intro hcontra
  have h1 : acts.flatMap (fun p => p.2) = [] := by
    cases hflatlist : acts.flatMap (fun p => p.2) with
    | nil => rfl
    | cons a t =>
      rw [hflatlist] at hcontra
      simp at hcontra
  exact flatMap_ne_nil acts hinv hne h1

set_option maxRecDepth 100000 in
/-- C5: for every in-range input triple, rule evaluation on the default
base succeeds, and the confidence computed from the activations equals the
spec blend `0.5·maxFiringStrength + 0.3·meanOverInputVariables(maxTermDegree)
+ 0.2·min(1, firedCount/5)` clamped to `[0,1]` whenever some rule fired,
equals exactly 0 when no rule fired, and always lies in `[0,1]`. -/
theorem C5_confidence_formula_and_range (ur ap gm : ℚ)
    (_h1 : 1 ≤ ur) (_h2 : ur ≤ 10) (_h3 : 0 ≤ ap) (_h4 : ap ≤ 100)
    (_h5 : 0 ≤ gm) (_h6 : gm ≤ 100) :
    ∃ acts, evaluate_all_rules default_rules (fuzzify_inputs_raw ur ap gm) = .ok acts ∧
      (acts ≠ [] → calculate_confidence acts (fuzzify_inputs_raw ur ap gm) =
        confidence_spec acts (fuzzify_inputs_raw ur ap gm)) ∧
      (acts = [] → calculate_confidence acts (fuzzify_inputs_raw ur ap gm) = 0) ∧
      0 ≤ calculate_confidence acts (fuzzify_inputs_raw ur ap gm) ∧
      calculate_confidence acts (fuzzify_inputs_raw ur ap gm) ≤ 1 := by
  have hm := fuzzify_inputs_raw_bounds ur ap gm
  have hwf : ∀ r ∈ default_rules, r.antecedents ≠ [] ∧ r.operator ≠ .NOT := by
    with_unfolding_all decide
  have hconf : ∀ r ∈ default_rules, 0 ≤ r.confidence ∧ r.confidence ≤ 1 := by
    with_unfolding_all decide
  obtain ⟨acts, hacts⟩ := evaluate_all_rules_ok default_rules _ hwf
  have hinv := evaluate_all_rules_inv default_rules _ acts hm hconf hacts
  have hmlen : (fuzzify_inputs_raw ur ap gm).length = 3 := rfl
  -- bounds on the three blended factors
  have hflat := flat_strength_bounds acts hinv
  have hmaxA : 0 ≤ ((acts.flatMap (fun p => p.2)).map (fun q => q.2)).foldl max 0 ∧
      ((acts.flatMap (fun p => p.2)).map (fun q => q.2)).foldl max 0 ≤ 1 :=
    foldl_max_bounds 0 1 _ 0 (le_refl 0) (by norm_num) hflat
  have hcertsum : 0 ≤ ((fuzzify_inputs_raw ur ap gm).map
        (fun p => max_terms_value p.2)).sum ∧
      ((fuzzify_inputs_raw ur ap gm).map (fun p => max_terms_value p.2)).sum ≤
        1 * (((fuzzify_inputs_raw ur ap gm).map (fun p => max_terms_value p.2)).length : ℚ) := by
    constructor
    · refine List.sum_nonneg ?_
      intro y hy
      obtain ⟨p, hp, rfl⟩ := List.mem_map.mp hy
      exact (max_terms_value_bounds p.2 (hm p hp)).1
    · refine list_sum_le_mul_length 1 _ ?_
      intro y hy
      obtain ⟨p, hp, rfl⟩ := List.mem_map.mp hy
      exact (max_terms_value_bounds p.2 (hm p hp)).2
  refine ⟨acts, hacts, ?_, ?_, ?_, ?_⟩
  · -- formula equality when some rule fired
    intro hne
    unfold calculate_confidence confidence_spec clamp01
    rw [if_neg hne]
    dsimp only
    rw [nested_max_fold acts 0, certainty_fold _ 0, count_fold acts 0]
    rw [foldl_max_zero_eq_list_max _ (flat_strengths_ne_nil acts hinv hne)
      (fun y hy => (hflat y hy).1)]
    rw [if_pos (by rw [hmlen]; norm_num)]
    rw [List.length_map, zero_add, Nat.zero_add]
    rw [max_eq_right]
    refine le_min (by norm_num) ?_
    have hlm : 0 ≤ list_max ((acts.flatMap (fun p => p.2)).map (fun q => q.2)) := by
      rw [← foldl_max_zero_eq_list_max _ (flat_strengths_ne_nil acts hinv hne)
        (fun y hy => (hflat y hy).1)]
      exact hmaxA.1
    have hcert : 0 ≤ ((fuzzify_inputs_raw ur ap gm).map
        (fun p => max_terms_value p.2)).sum / ((fuzzify_inputs_raw ur ap gm).length : ℚ) := by
      apply div_nonneg hcertsum.1
      rw [hmlen]
      norm_num
    have hdiv : 0 ≤ min 1 ((((acts.flatMap (fun p => p.2)).length : ℕ) : ℚ) / 5) :=
      le_min (by norm_num) (div_nonneg (by positivity) (by norm_num))
    linarith
  · intro h
    rw [h]
    rfl
  · -- nonnegativity
    unfold calculate_confidence
    split_ifs with hne0 hlen0
    · norm_num
    · rw [nested_max_fold acts 0, certainty_fold _ 0, count_fold acts 0]
      refine le_min (by norm_num) ?_
      have hcert : 0 ≤ ((0 : ℚ) + ((fuzzify_inputs_raw ur ap gm).map
          (fun p => max_terms_value p.2)).sum) / ((fuzzify_inputs_raw ur ap gm).length : ℚ) := by
        apply div_nonneg
        · rw [zero_add]; exact hcertsum.1
        · rw [hmlen]; norm_num
      have hdiv : 0 ≤ min 1 (((0 + (acts.flatMap (fun p => p.2)).length : ℕ) : ℚ) / 5) :=
        le_min (by norm_num) (div_nonneg (by positivity) (by norm_num))
      linarith [hmaxA.1]
    · exact absurd (by rw [hmlen]; norm_num) hlen0
  · -- upper bound
    unfold calculate_confidence
    split_ifs with hne0 hlen0
    · norm_num
    · exact min_le_left _ _
    · exact min_le_left _ _

theorem C5_confidence_formula_and_range_witness :
    ∃ acts, evaluate_all_rules default_rules (fuzzify_inputs_raw 8.5 85 90) = .ok acts ∧
      (acts ≠ [] → calculate_confidence acts (fuzzify_inputs_raw 8.5 85 90) =
        confidence_spec acts (fuzzify_inputs_raw 8.5 85 90)) ∧
      (acts = [] → calculate_confidence acts (fuzzify_inputs_raw 8.5 85 90) = 0) ∧
      0 ≤ calculate_confidence acts (fuzzify_inputs_raw 8.5 85 90) ∧
      calculate_confidence acts (fuzzify_inputs_raw 8.5 85 90) ≤ 1 :=
  C5_confidence_formula_and_range 8.5 85 90 (by norm_num) (by norm_num) (by norm_num)
    (by norm_num) (by norm_num) (by norm_num)

end FuzzyRec
